import Mathlib

/-!
Harris corner detection with non-maximum suppression

A shallow embedding of `src/src/detectHarrisCorners.cpp`
(`DetectHarrisCorners::selectStrongest` and `DetectHarrisCorners::findCorners`).

Modelling conventions
* `float`/`double` values are rationals (`Rat`) with the usual order; there is no NaN
  or infinity. The arithmetic of lines 93-106 is read twice: `cornerStrength`,
  `harrisValue`, `threshold` and `findCorners` compute without rounding, while
  `cornerStrengthFloat`, `harrisValueFloat`, `threshFloat` and `findCornersFloat` round
  every `float` and `double` result to nearest, as the code does. The suppression step
  only compares stored values, so its definitions take an arbitrary field.
* `int` coordinates are mathematical integers (`Int`); the offsets added to a
  coordinate are at most 10 in absolute value.
* `cv::Mat::at<float>(row, col)` is a checked read `Mat.at`: a read outside
  `0 ≤ row < rows`, `0 ≤ col < cols` has no defined value and makes the enclosing
  operation return `none`.
* The member vectors `cornerEstimates` and `harrisCorners` of the detector object are
  passed explicitly as lists.
-/

namespace HarrisCorners

/-! ## Data model -/

/-- The integer pixel coordinate `cv::Point`: `x` is the column, `y` the row. -/
structure Point where
  x : Int
  y : Int
deriving DecidableEq, Repr

/-- A single-channel `cv::Mat` of type `CV_32F`: `val r c` is the element stored at
row `r`, column `c`; only the entries with `r < rows` and `c < cols` belong to the
matrix. -/
structure Mat where
  rows : Nat
  cols : Nat
  val : Nat → Nat → Rat

/-- The index pair `(row, col)` addresses an element of the matrix. -/
def Mat.inside (hv : Mat) (row col : Int) : Prop :=
  0 ≤ row ∧ row < hv.rows ∧ 0 ≤ col ∧ col < hv.cols

instance (hv : Mat) (row col : Int) : Decidable (hv.inside row col) := by
  unfold Mat.inside
  infer_instance

/-- The stored element addressed by `(row, col)`, without any range check. -/
def Mat.get (hv : Mat) (row col : Int) : Rat :=
  hv.val row.toNat col.toNat

/-- The read `harrisValue.at<float>(row, col)`: defined only inside the matrix. -/
def Mat.at (hv : Mat) (row col : Int) : Option Rat :=
  if hv.inside row col then some (hv.get row col) else none

/-! ## Non-maximum suppression (`selectStrongest`, lines 19-48) -/

/-- The values taken by a loop variable in `for (int v = lo; v < hi; v++)`. -/
def loopRange (lo hi : Int) : List Int :=
  (List.range (hi - lo).toNat).map (fun (k : Nat) => lo + (k : Int))

/-- The points `currentPt` visited by the two nested loops of lines 31-34, in the order
of the visit: `m` (the row offset) is the outer variable and `n` (the column offset)
the inner one, both running from `-winSize/2` up to but excluding `winSize/2`, with
the truncating division of C++. -/
def windowPoints (winSize : Int) (currentC : Point) : List Point :=
  (loopRange (Int.tdiv (-winSize) 2) (Int.tdiv winSize 2)).flatMap (fun m =>
    (loopRange (Int.tdiv (-winSize) 2) (Int.tdiv winSize 2)).map (fun n =>
      (⟨currentC.x + n, currentC.y + m⟩ : Point)))

/-- The body of the inner loop (lines 34-39) run over the points still to visit, on
the state `(maxH, maxPt)`: a point replaces the current best only when its value is
strictly greater. -/
def scanWindow (harrisValue : Mat) : List Point → Rat × Point → Option (Rat × Point)
  | [], best => some best
  | currentPt :: rest, (maxH, maxPt) =>
    match harrisValue.at currentPt.y currentPt.x with
    | none => none
    | some tempH =>
      if tempH > maxH then scanWindow harrisValue rest (tempH, currentPt)
      else scanWindow harrisValue rest (maxH, maxPt)

/-- Lines 26-42 for one candidate `currentC`: the point `maxPt` left by the window scan
that starts from `currentC` itself as the current best. -/
def strongestInWindow (winSize : Int) (harrisValue : Mat) (currentC : Point) :
    Option Point :=
  match harrisValue.at currentC.y currentC.x with
  | none => none
  | some currentH =>
    (scanWindow harrisValue (windowPoints winSize currentC) (currentH, currentC)).map
      Prod.snd

/-- Lines 44-46: `maxPt` is appended to `harrisCorners` unless `std::find` finds it. -/
def pushIfAbsent (harrisCorners : List Point) (maxPt : Point) : List Point :=
  if maxPt ∈ harrisCorners then harrisCorners else harrisCorners ++ [maxPt]

/-- The loop of lines 24-47 over the candidates still to process, with the window side
`winSize` as a parameter; the last argument is the member `harrisCorners`. -/
def selectStrongestWith (winSize : Int) :
    List Point → Mat → List Point → Option (List Point)
  | [], _, harrisCorners => some harrisCorners
  | currentC :: rest, harrisValue, harrisCorners =>
    match strongestInWindow winSize harrisValue currentC with
    | none => none
    | some maxPt =>
      selectStrongestWith winSize rest harrisValue (pushIfAbsent harrisCorners maxPt)

/-- The function `DetectHarrisCorners::selectStrongest`, whose window side is the
constant `winSize = 20` of line 22. The result is the member `harrisCorners` after the
call, or `none` when some read fell outside `harrisValue`. -/
def selectStrongest (cornerEstimates : List Point) (harrisValue : Mat)
    (harrisCorners : List Point) : Option (List Point) :=
  selectStrongestWith 20 cornerEstimates harrisValue harrisCorners

/-! ## Cornerness field and thresholding (`findCorners`, lines 56-126)

The OpenCV primitives called by `findCorners` are modelled after their documented
semantics for the arguments used here (8-bit three-channel input, default anchor and
border mode, `delta = 0`). Their argument checks are not modelled: the intended domain
is a non-empty image with channel values up to 255 and a `harrisRadius ≥ 1` small enough
for `filter2D` to sum directly; no definition below
describes what the code does on an empty image or with `harrisRadius ≤ 0`, where these
checks raise. -/

/-- A pixel of the 8-bit three-channel input image, channels in OpenCV's B, G, R order. -/
structure Pixel where
  b : Nat
  g : Nat
  r : Nat
deriving DecidableEq, Repr

/-- The input image `img`: `px j i` is the pixel at row `j`, column `i`. -/
structure Image where
  rows : Nat
  cols : Nat
  px : Nat → Nat → Pixel

/-- The conversion `cv::cvtColor(img, imgGray, CV_BGR2GRAY)` (line 67) of an 8-bit
image to an 8-bit gray image: the gray value is `(1868 B + 9617 G + 4899 R + 8192) >> 14`,
the fixed-point form of `Y = 0.299 R + 0.587 G + 0.114 B` of OpenCV 2.4 and 3.x (later
releases use 15-bit constants; on a pixel with three equal channels both give the
value of the channels). -/
def cvtColor (img : Image) : Mat where
  rows := img.rows
  cols := img.cols
  val := fun j i =>
    (((1868 * (img.px j i).b + 9617 * (img.px j i).g + 4899 * (img.px j i).r + 8192)
      / 16384 : Nat) : Rat)

/-- OpenCV's `borderInterpolate(p, len, BORDER_REFLECT_101)`, the default border mode
of `filter2D`: the index is mirrored about the first and the last element without
repeating them (`gfedcb|abcdefgh|gfedcba`). -/
def borderInterpolate (p : Int) (len : Nat) : Nat :=
  if len ≤ 1 then 0
  else
    let q := (p % (2 * ((len : Int) - 1))).toNat
    if q < len then q else 2 * (len - 1) - q

/-- The call `cv::filter2D(src, dst, CV_32F, kernel, cv::Point(-1,-1), 0)`: the
correlation of `src` with `kernel`, anchored at the kernel centre
`(kernel.cols/2, kernel.rows/2)`, with `delta = 0` and reflected borders. -/
def filter2D (src kernel : Mat) : Mat where
  rows := src.rows
  cols := src.cols
  val := fun y x =>
    ((List.range kernel.rows).map (fun ky =>
      ((List.range kernel.cols).map (fun kx =>
        kernel.val ky kx *
          src.val (borderInterpolate ((y : Int) + (ky : Int) - ((kernel.rows / 2 : Nat) : Int)) src.rows)
            (borderInterpolate ((x : Int) + (kx : Int) - ((kernel.cols / 2 : Nat) : Int)) src.cols))).sum)).sum

/-- The element-wise product `a.mul(b)`. -/
def Mat.mul (a b : Mat) : Mat where
  rows := a.rows
  cols := a.cols
  val := fun j i => a.val j i * b.val j i

/-- The transposed matrix `a.t()`. -/
def Mat.t (a : Mat) : Mat where
  rows := a.cols
  cols := a.rows
  val := fun j i => a.val i j

/-- The 1x2 difference kernel of lines 59-61: `kernel(0,0) = -1`, `kernel(0,1) = 1`. -/
def kernel : Mat where
  rows := 1
  cols := 2
  val := fun _ c => if c = 0 then -1 else 1

/-- The all-ones kernel `unWeightedKernel(harrisRadius, harrisRadius, CV_32FC1, 1)` for
`harrisRadius ≥ 1`. The constructor of `cv::Mat` rejects a negative size; `toNat` gives
a kernel without elements there and for 0, which is not the behaviour of the code. -/
def unWeightedKernel (harrisRadius : Int) : Mat where
  rows := harrisRadius.toNat
  cols := harrisRadius.toNat
  val := fun _ _ => 1

/-- The gray image `imgGray` of line 67. -/
def imgGray (img : Image) : Mat := cvtColor img

/-- The horizontal derivative `imgGradX` of line 68. -/
def imgGradX (img : Image) : Mat := filter2D (imgGray img) kernel

/-- The vertical derivative `imgGradY` of line 69. -/
def imgGradY (img : Image) : Mat := filter2D (imgGray img) kernel.t

/-- The field `imgGradXX` after the summation of line 75. -/
def imgGradXX (harrisRadius : Int) (img : Image) : Mat :=
  filter2D ((imgGradX img).mul (imgGradX img)) (unWeightedKernel harrisRadius)

/-- The field `imgGradYY` after the summation of line 76. -/
def imgGradYY (harrisRadius : Int) (img : Image) : Mat :=
  filter2D ((imgGradY img).mul (imgGradY img)) (unWeightedKernel harrisRadius)

/-- The field `imgGradXY` after the summation of line 77. -/
def imgGradXY (harrisRadius : Int) (img : Image) : Mat :=
  filter2D ((imgGradX img).mul (imgGradY img)) (unWeightedKernel harrisRadius)

/-- The conversion of a floating constant to `int`: truncation toward zero. -/
def truncToInt (q : Rat) : Int := Int.tdiv q.num q.den

/-- The declaration `int k = 0.05;` of line 92. -/
def k : Int := truncToInt (5 / 100)

/-- Lines 86-95 for one pixel, from the entries of the three summed fields at that
pixel: the Harris matrix `M`, `cv::determinant(M)`, the trace and
`cornerStrength = deterH - k*traceH`, computed without rounding; the value that the
code stores is `cornerStrengthFloat`. -/
def cornerStrength (gxx gxy gyy : Rat) : Rat :=
  let m00 := gxx
  let m10 := gxy
  let m01 := gxy
  let m11 := gyy
  let deterH := m00 * m11 - m01 * m10
  let traceH := m00 + m11
  deterH - (k : Rat) * traceH

/-- The matrix `harrisValue` filled by the loops of lines 83-98 (all reads of the three
summed fields are at positions `(j, i)` within their dimensions). -/
def harrisValue (harrisRadius : Int) (img : Image) : Mat where
  rows := img.rows
  cols := img.cols
  val := fun j i =>
    cornerStrength ((imgGradXX harrisRadius img).val j i)
      ((imgGradXY harrisRadius img).val j i) ((imgGradYY harrisRadius img).val j i)

/-- The elements of a matrix in row-major order. -/
def Mat.entries (m : Mat) : List Rat :=
  (List.range m.rows).flatMap (fun j => (List.range m.cols).map (fun i => m.val j i))

/-- The value `maxVal` returned by `cv::minMaxLoc` (line 102): the greatest element of
the matrix (0 for a matrix without elements). -/
def maxVal (m : Mat) : Rat :=
  match m.entries with
  | [] => 0
  | v :: vs => vs.foldl max v

/-- The inner loop of lines 109-114 for row `j`: column `i` is pushed as
`cv::Point(i, j)` when its value exceeds `thresh`. The read at `(j, i)` is within the
matrix, `j` and `i` being bounded by its dimensions, and is taken from `val` directly. -/
def thresholdRow (harrisValue : Mat) (thresh : Rat) (width : Nat) (j : Nat)
    (cornerEstimates : List Point) : List Point :=
  (List.range width).foldl
    (fun acc i =>
      if harrisValue.val j i > thresh then acc ++ [(⟨(i : Int), (j : Int)⟩ : Point)]
      else acc)
    cornerEstimates

/-- The loops of lines 108-115 on the member `cornerEstimates`. -/
def thresholdPass (harrisValue : Mat) (thresh : Rat) (height width : Nat)
    (cornerEstimates : List Point) : List Point :=
  (List.range height).foldl
    (fun acc j => thresholdRow harrisValue thresh width j acc)
    cornerEstimates

/-- Modelled from the spec: the class declaration of `detectharriscorners.h` is not
among the sources; its two members used by the code are the candidate list
`cornerEstimates` and the accumulated corner list `harrisCorners`. -/
structure DetectHarrisCorners where
  cornerEstimates : List Point
  harrisCorners : List Point
deriving DecidableEq, Repr

/-- A detector object on which no call has been made yet. -/
def DetectHarrisCorners.fresh : DetectHarrisCorners := ⟨[], []⟩

/-- The threshold `thresh = 0.35*maxVal` of line 106, computed without rounding; the
value that the code stores in the `float` variable is `threshFloat`. -/
def threshold (harrisValue : Mat) : Rat := 35 / 100 * maxVal harrisValue

/-- The function `DetectHarrisCorners::findCorners`, as a transformation of the
detector object: the result is the object after the call, or `none` when the
suppression step read outside `harrisValue`. -/
def findCorners (harrisRadius : Int) (img : Image) (self : DetectHarrisCorners) :
    Option DetectHarrisCorners :=
  let hv := harrisValue harrisRadius img
  let height := img.rows
  let width := img.cols
  let thresh := threshold hv
  let cornerEstimates := thresholdPass hv thresh height width self.cornerEstimates
  (selectStrongest cornerEstimates hv self.harrisCorners).map
    (fun harrisCorners => ⟨cornerEstimates, harrisCorners⟩)

/-! ## Notions used to state the properties -/

/-- The coordinates read by lines 27 and 35 while one candidate is processed: the
candidate itself, then the points of its window. -/
def scanReads (winSize : Int) (currentC : Point) : List Point :=
  currentC :: windowPoints winSize currentC

/-- The points `maxPt` computed for the candidates, in candidate order; `none` when the
scan of some candidate reads outside the matrix. -/
def windowMaxima (winSize : Int) (harrisValue : Mat) : List Point → Option (List Point)
  | [] => some []
  | currentC :: rest =>
    match strongestInWindow winSize harrisValue currentC with
    | none => none
    | some maxPt => (windowMaxima winSize harrisValue rest).map (fun ps => maxPt :: ps)

/-- The sequence `firstOccurrences l` keeps, in order, the first occurrence of every
point of `l` and removes every later occurrence. -/
def firstOccurrences : List Point → List Point
  | [] => []
  | p :: ps => p :: (firstOccurrences ps).filter (fun q => q ≠ p)

/-- The candidate pixels in the words of the specification: the pixels `(x = i, y = j)`
of the `height` x `width` raster whose value exceeds `thresh`, row by row. -/
def candidatePixels (hv : Mat) (thresh : Rat) (height width : Nat) : List Point :=
  (List.range height).flatMap (fun j =>
    ((List.range width).filter (fun i => decide (hv.val j i > thresh))).map
      (fun (i : Nat) => (⟨(i : Int), (j : Int)⟩ : Point)))

/-- Raster scan order on points: an earlier row, or the same row and an earlier column. -/
def rasterBefore (p q : Point) : Prop :=
  p.y < q.y ∨ (p.y = q.y ∧ p.x < q.x)

/-- The candidate list that `findCorners` builds (lines 100-115) on a detector whose
`cornerEstimates` is empty. -/
def findCandidates (harrisRadius : Int) (img : Image) : List Point :=
  thresholdPass (harrisValue harrisRadius img) (threshold (harrisValue harrisRadius img))
    img.rows img.cols []

/-- The image has uniform intensity: all pixels of its 8-bit gray image have one and
the same value, as is the case when all its pixels have the same colour. -/
def Image.uniformIntensity (img : Image) : Prop :=
  ∃ v : Rat, ∀ j i, j < img.rows → i < img.cols → (imgGray img).val j i = v

/-- The matrix of the given size whose elements are all zero. -/
def zeroMat (rows cols : Nat) : Mat := ⟨rows, cols, fun _ _ => 0⟩

/-! ## Concrete inputs -/

/-- A 21 x 21 field that is zero except for the value 5 at row 10, column 10. -/
def peakField : Mat :=
  ⟨21, 21, fun r c => if r = 10 ∧ c = 10 then 5 else 0⟩

/-- A 60 x 60 field that is zero except in row 30, where columns 19, 30 and 31 hold
9, 5 and 1. -/
def ridgeField : Mat :=
  ⟨60, 60, fun r c =>
    if r = 30 ∧ c = 19 then 9
    else if r = 30 ∧ c = 30 then 5
    else if r = 30 ∧ c = 31 then 1
    else 0⟩

/-- A black image of a single pixel. -/
def onePixel : Image := ⟨1, 1, fun _ _ => ⟨0, 0, 0⟩⟩

/-- A 20 x 20 image whose pixels are all the same gray. -/
def flatImage : Image := ⟨20, 20, fun _ _ => ⟨7, 7, 7⟩⟩

/-- A 2 x 3 black image with one brighter pixel at row 1, column 2. -/
def edgeImage : Image :=
  ⟨2, 3, fun j i => if j = 1 ∧ i = 2 then ⟨1, 1, 1⟩ else ⟨0, 0, 0⟩⟩


/-! ## Further notions and inputs -/

/-- Lines 100-117 of `findCorners` for a given matrix `harrisValue` and loop bounds
`height`, `width`: the maximum, the threshold, the threshold pass and the call of
`selectStrongest`. -/
def thresholdAndSuppress (hv : Mat) (height width : Nat) (self : DetectHarrisCorners) :
    Option DetectHarrisCorners :=
  let thresh := threshold hv
  let cornerEstimates := thresholdPass hv thresh height width self.cornerEstimates
  (selectStrongest cornerEstimates hv self.harrisCorners).map
    (fun harrisCorners => ⟨cornerEstimates, harrisCorners⟩)

/-- The threshold pass of lines 106-115 on an empty candidate list, with the relative
threshold fraction (0.35 in line 106) as a parameter. -/
def thresholdPassWith (fraction : Rat) (hv : Mat) : List Point :=
  thresholdPass hv (fraction * maxVal hv) hv.rows hv.cols []

/-- A 21 x 21 field that is zero except for the value 5 at row 10, columns 10 and 11. -/
def twinField : Mat :=
  ⟨21, 21, fun r c => if r = 10 ∧ (c = 10 ∨ c = 11) then 5 else 0⟩

/-- A 20 x 20 black image with one brighter pixel at row 9, column 9. -/
def dotImage : Image :=
  ⟨20, 20, fun j i => if j = 9 ∧ i = 9 then ⟨1, 1, 1⟩ else ⟨0, 0, 0⟩⟩

/-- The horizontal derivative of `dotImage`, written out. -/
def dotGradX : Mat :=
  ⟨20, 20, fun j i => if j = 9 ∧ i = 9 then 1 else if j = 9 ∧ i = 10 then -1 else 0⟩

/-- The vertical derivative of `dotImage`, written out. -/
def dotGradY : Mat :=
  ⟨20, 20, fun j i => if j = 9 ∧ i = 9 then 1 else if j = 10 ∧ i = 9 then -1 else 0⟩

/-- The cornerness field of `dotImage` for `harrisRadius = 2`, written out. -/
def dotField : Mat :=
  ⟨20, 20, fun j i =>
    if j = 10 ∧ i = 10 then 3
    else if (j = 9 ∧ i = 10) ∨ (j = 10 ∧ i = 9) then 1
    else 0⟩

/-! ## Windows of two elements

The difference kernel of lines 59-61 and, for `harrisRadius = 2`, the summation kernel
of line 63 have two elements in each direction in which they extend, anchored at the
second: `filter2D` reads the element before the pixel, mirrored at the border, and the
pixel itself. -/

/-- The index before `n`, mirrored at the border: `n - 1`, and 1 for `n = 0`. -/
def reflectPred (n : Nat) : Nat := if n = 0 then 1 else n - 1

/-- The sum of the products `f * g` of two integer tables over the two rows and two
columns that end at `(y, x)`. -/
def sumTwoByTwo (f g : Nat → Nat → Int) (y x : Nat) : Int :=
  f (reflectPred y) (reflectPred x) * g (reflectPred y) (reflectPred x)
    + f (reflectPred y) x * g (reflectPred y) x
    + (f y (reflectPred x) * g y (reflectPred x) + f y x * g y x)

/-- The elements of `dotGradX` as integers. -/
def dotGradXInt (j i : Nat) : Int :=
  if j = 9 ∧ i = 9 then 1 else if j = 9 ∧ i = 10 then -1 else 0

/-- The elements of `dotGradY` as integers. -/
def dotGradYInt (j i : Nat) : Int :=
  if j = 9 ∧ i = 9 then 1 else if j = 10 ∧ i = 9 then -1 else 0

/-! ## Rounding of `float` and `double` values

Round-to-nearest, ties-to-even, to a binary format with `p` significant bits. The
exponent range is not bounded: the values that occur below (integers below `2^100` and
their products with 0.35) are far from the overflow and underflow thresholds of
`float` and `double`. -/

/-- The integer nearest to `x`, the even one of the two when `x` lies half-way. -/
def roundHalfEven (x : Rat) : Int :=
  let f := Rat.floor x
  let r := x - (f : Rat)
  if r < 1 / 2 then f else if 1 / 2 < r then f + 1 else if f % 2 = 0 then f else f + 1

/-- The power `2^z` for an integer exponent. -/
def pow2 (z : Int) : Rat :=
  if 0 ≤ z then ((2 ^ z.toNat : Nat) : Rat) else 1 / ((2 ^ (-z).toNat : Nat) : Rat)

/-- The number of halvings that bring `n` below 2, counted with at most `fuel` steps:
for `1 ≤ n ≤ fuel` this is the integer part of the binary logarithm of `n`. -/
def log2Fuel : Nat → Nat → Nat
  | 0, _ => 0
  | fuel + 1, n => if 2 ≤ n then log2Fuel fuel (n / 2) + 1 else 0

/-- The binary exponent of `q ≠ 0`: the integer `e` with `2^e ≤ |q| < 2^(e+1)`. -/
def binaryExponent (q : Rat) : Int :=
  let e : Int := (log2Fuel q.num.natAbs q.num.natAbs : Int) - (log2Fuel q.den q.den : Int)
  if pow2 e * (q.den : Rat) ≤ (q.num.natAbs : Rat) then e else e - 1

/-- The number with `p` significant bits nearest to `q` (ties to even). -/
def roundToPrecision (p : Nat) (q : Rat) : Rat :=
  if q = 0 then 0
  else
    let ulp : Rat := pow2 (binaryExponent q - (p : Int) + 1)
    (roundHalfEven (q / ulp) : Rat) * ulp

/-- The value of type `float` (24 significant bits) nearest to `q`. -/
def toFloat (q : Rat) : Rat := roundToPrecision 24 q

/-- The value of type `double` (53 significant bits) nearest to `q`. -/
def toDouble (q : Rat) : Rat := roundToPrecision 53 q

/-! ## The cornerness value and the threshold as stored

The definitions `cornerStrength`, `harrisValue`, `threshold` and `findCorners` above
read the arithmetic of lines 93-106 exactly. The definitions of this section read the
same lines with the roundings of their `float` and `double` variables. The sums
computed by `filter2D` are kept as they are: for an 8-bit image and
`harrisRadius ≤ 16` they are integers below `2^24`, which `float` holds exactly. -/

/-- Lines 86-95 for one pixel with the roundings of the code: `cv::determinant`
computes `(double)m00*m11 - (double)m01*m10` in `double`, the result is narrowed to
the `float` variable `deterH`, `traceH` is a `float` sum, and
`cornerStrength = deterH - k*traceH` is evaluated in `float`. -/
def cornerStrengthFloat (gxx gxy gyy : Rat) : Rat :=
  let m00 := gxx
  let m10 := gxy
  let m01 := gxy
  let m11 := gyy
  let deterH := toFloat (toDouble (toDouble (m00 * m11) - toDouble (m01 * m10)))
  let traceH := toFloat (m00 + m11)
  toFloat (deterH - toFloat ((k : Rat) * traceH))

/-- The matrix `harrisValue` filled by the loops of lines 83-98, as stored. -/
def harrisValueFloat (harrisRadius : Int) (img : Image) : Mat where
  rows := img.rows
  cols := img.cols
  val := fun j i =>
    cornerStrengthFloat ((imgGradXX harrisRadius img).val j i)
      ((imgGradXY harrisRadius img).val j i) ((imgGradYY harrisRadius img).val j i)

/-- The variable `thresh` of line 106 as stored: the `double` constant `0.35` times the
`double` value `maxVal`, computed in `double` and narrowed to `float`. -/
def threshFloat (harrisValue : Mat) : Rat :=
  toFloat (toDouble (toDouble (35 / 100) * maxVal harrisValue))

/-- Lines 108-117 of `findCorners` for a given matrix, threshold and loop bounds. -/
def suppressAfterThreshold (thresh : Rat) (hv : Mat) (height width : Nat)
    (self : DetectHarrisCorners) : Option DetectHarrisCorners :=
  let cornerEstimates := thresholdPass hv thresh height width self.cornerEstimates
  (selectStrongest cornerEstimates hv self.harrisCorners).map
    (fun harrisCorners => ⟨cornerEstimates, harrisCorners⟩)

/-- The function `DetectHarrisCorners::findCorners` with the stored cornerness values
and the stored threshold. -/
def findCornersFloat (harrisRadius : Int) (img : Image) (self : DetectHarrisCorners) :
    Option DetectHarrisCorners :=
  let hv := harrisValueFloat harrisRadius img
  let height := img.rows
  let width := img.cols
  let thresh := threshFloat hv
  suppressAfterThreshold thresh hv height width self

/-- The candidate list that `findCornersFloat` builds on a detector whose
`cornerEstimates` is empty. -/
def findCandidatesFloat (harrisRadius : Int) (img : Image) : List Point :=
  thresholdPass (harrisValueFloat harrisRadius img)
    (threshFloat (harrisValueFloat harrisRadius img)) img.rows img.cols []

/-- A black image of 3 x 3 pixels with a white pixel in the middle. -/
def whiteDot : Image :=
  ⟨3, 3, fun j i => if j = 1 ∧ i = 1 then ⟨255, 255, 255⟩ else ⟨0, 0, 0⟩⟩

/-- A black image of 21 rows and 23 columns with four gray pixels: 22 and 66 at row 10,
columns 8 and 9, 47 at row 10, column 12, and 19 at row 11, column 13. -/
def twoClusters : Image :=
  ⟨21, 23, fun j i =>
    if j = 10 ∧ i = 8 then ⟨22, 22, 22⟩
    else if j = 10 ∧ i = 9 then ⟨66, 66, 66⟩
    else if j = 10 ∧ i = 12 then ⟨47, 47, 47⟩
    else if j = 11 ∧ i = 13 then ⟨19, 19, 19⟩
    else ⟨0, 0, 0⟩⟩

/-- The elements of the horizontal derivative of `twoClusters`, written out. -/
def twoClustersGradXInt (j i : Nat) : Int :=
  if j = 10 ∧ i = 8 then 22
  else if j = 10 ∧ i = 9 then 44
  else if j = 10 ∧ i = 10 then -66
  else if j = 10 ∧ i = 12 then 47
  else if j = 10 ∧ i = 13 then -47
  else if j = 11 ∧ i = 13 then 19
  else if j = 11 ∧ i = 14 then -19
  else 0

/-- The elements of the vertical derivative of `twoClusters`, written out. -/
def twoClustersGradYInt (j i : Nat) : Int :=
  if j = 10 ∧ i = 8 then 22
  else if j = 10 ∧ i = 9 then 66
  else if j = 10 ∧ i = 12 then 47
  else if j = 11 ∧ i = 8 then -22
  else if j = 11 ∧ i = 9 then -66
  else if j = 11 ∧ i = 12 then -47
  else if j = 11 ∧ i = 13 then 19
  else if j = 12 ∧ i = 13 then -19
  else 0

/-- The horizontal derivative of `twoClusters` as a matrix. -/
def twoClustersGradX : Mat := ⟨21, 23, fun j i => ((twoClustersGradXInt j i : Int) : Rat)⟩

/-- The vertical derivative of `twoClusters` as a matrix. -/
def twoClustersGradY : Mat := ⟨21, 23, fun j i => ((twoClustersGradYInt j i : Int) : Rat)⟩

/-- The stored cornerness field of `twoClusters` for `harrisRadius = 2`, written out. -/
def twoClustersField : Mat :=
  ⟨21, 23, fun j i =>
    if j = 10 ∧ i = 9 then 234256
    else if j = 10 ∧ i = 10 then 18974736
    else if j = 10 ∧ i = 13 then 4879681
    else if j = 11 ∧ i = 8 then 234256
    else if j = 11 ∧ i = 9 then 11947056
    else if j = 11 ∧ i = 10 then 46382688
    else if j = 11 ∧ i = 12 then 4879681
    else if j = 11 ∧ i = 13 then 16233941
    else if j = 11 ∧ i = 14 then 927770
    else if j = 12 ∧ i = 13 then 927770
    else if j = 12 ∧ i = 14 then 390963
    else 0⟩

/-! ## Auxiliary lemmas -/

/-! ### Loop ranges and windows -/

theorem mem_loopRange (lo hi k : Int) : k ∈ loopRange lo hi ↔ lo ≤ k ∧ k < hi := by
  unfold loopRange
  simp only [List.mem_map, List.mem_range]
  constructor
  · rintro ⟨a, ha, rfl⟩
    omega
  · rintro ⟨h1, h2⟩
    exact ⟨(k - lo).toNat, by omega, by omega⟩

theorem mem_windowPoints (winSize : Int) (c p : Point) :
    p ∈ windowPoints winSize c ↔
      (Int.tdiv (-winSize) 2 ≤ p.x - c.x ∧ p.x - c.x < Int.tdiv winSize 2) ∧
      (Int.tdiv (-winSize) 2 ≤ p.y - c.y ∧ p.y - c.y < Int.tdiv winSize 2) := by
  unfold windowPoints
  simp only [List.mem_flatMap, List.mem_map, mem_loopRange]
  constructor
  · rintro ⟨m, hm, n, hn, rfl⟩
    simp only [add_sub_cancel_left]
    exact ⟨hn, hm⟩
  · rintro ⟨hn, hm⟩
    refine ⟨p.y - c.y, hm, p.x - c.x, hn, ?_⟩
    cases p
    simp

theorem mem_windowPoints_twenty (c p : Point) :
    p ∈ windowPoints 20 c ↔
      (c.x - 10 ≤ p.x ∧ p.x ≤ c.x + 9) ∧ (c.y - 10 ≤ p.y ∧ p.y ≤ c.y + 9) := by
  rw [mem_windowPoints]
  have h1 : Int.tdiv (-20) 2 = -10 := by decide
  have h2 : Int.tdiv 20 2 = 10 := by decide
  rw [h1, h2]
  omega

theorem self_mem_windowPoints_twenty (c : Point) : c ∈ windowPoints 20 c := by
  rw [mem_windowPoints_twenty]
  omega

theorem windowPoints_eq_nil (winSize : Int) (h : winSize ≤ 1) (c : Point) :
    windowPoints winSize c = [] := by
  have hr : loopRange (Int.tdiv (-winSize) 2) (Int.tdiv winSize 2) = [] := by
    apply List.eq_nil_iff_forall_not_mem.mpr
    intro k hk
    rw [mem_loopRange] at hk
    have h0 : 0 ≤ Int.tdiv (1 - winSize) 2 := Int.tdiv_nonneg (by omega) (by omega)
    have h1 : Int.tdiv winSize 2 ≤ 0 := by
      rcases Int.lt_or_le winSize 0 with hn | hp
      · have h3 : 0 ≤ Int.tdiv (-winSize) 2 := Int.tdiv_nonneg (by omega) (by omega)
        rw [Int.neg_tdiv] at h3
        omega
      · have : winSize = 0 ∨ winSize = 1 := by omega
        rcases this with rfl | rfl <;> decide
    rw [Int.neg_tdiv] at hk
    omega
  unfold windowPoints
  rw [hr]
  rfl

theorem Mat.at_eq_some (hv : Mat) (row col : Int) (v : Rat) :
    hv.at row col = some v ↔ hv.inside row col ∧ hv.get row col = v := by
  unfold Mat.at
  split <;> simp_all

theorem Mat.at_of_inside (hv : Mat) (row col : Int) (h : hv.inside row col) :
    hv.at row col = some (hv.get row col) := by
  unfold Mat.at
  simp [h]

theorem Mat.at_eq_none (hv : Mat) (row col : Int) :
    hv.at row col = none ↔ ¬ hv.inside row col := by
  unfold Mat.at
  split <;> simp_all

/-! ### The window scan -/

theorem scanWindow_isSome (hv : Mat) (pts : List Point)
    (h : ∀ p ∈ pts, hv.inside p.y p.x) (best : Rat × Point) :
    ∃ r, scanWindow hv pts best = some r := by
  induction pts generalizing best with
  | nil => exact ⟨best, rfl⟩
  | cons p rest ih =>
    obtain ⟨maxH, maxPt⟩ := best
    have hp := h p (List.mem_cons_self _ _)
    have hrest : ∀ q ∈ rest, hv.inside q.y q.x := fun q hq => h q (List.mem_cons_of_mem _ hq)
    simp only [scanWindow, Mat.at_of_inside hv _ _ hp]
    split
    · exact ih hrest _
    · exact ih hrest _

theorem scanWindow_inside (hv : Mat) (pts : List Point) (best r : Rat × Point)
    (h : scanWindow hv pts best = some r) : ∀ p ∈ pts, hv.inside p.y p.x := by
  induction pts generalizing best with
  | nil => intro p hp; cases hp
  | cons q rest ih =>
    obtain ⟨maxH, maxPt⟩ := best
    simp only [scanWindow] at h
    cases hq : hv.at q.y q.x with
    | none => simp [hq] at h
    | some v =>
      simp only [hq] at h
      have hin : hv.inside q.y q.x := ((Mat.at_eq_some hv _ _ v).mp hq).1
      intro p hp
      rcases List.mem_cons.mp hp with rfl | hp
      · exact hin
      · split at h
        · exact ih _ h p hp
        · exact ih _ h p hp

/-- What the scan leaves: a value not below the initial best nor below any visited
point, carried either by the initial best or by a visited point. -/
theorem scanWindow_spec (hv : Mat) (pts : List Point) (maxH : Rat) (maxPt : Point)
    (r : Rat × Point) (h : scanWindow hv pts (maxH, maxPt) = some r) :
    maxH ≤ r.1 ∧ (∀ p ∈ pts, hv.get p.y p.x ≤ r.1) ∧
      (r = (maxH, maxPt) ∨ (r.2 ∈ pts ∧ r.1 = hv.get r.2.y r.2.x)) := by
  induction pts generalizing maxH maxPt with
  | nil =>
    simp only [scanWindow, Option.some.injEq] at h
    subst h
    simp
  | cons q rest ih =>
    simp only [scanWindow] at h
    cases hq : hv.at q.y q.x with
    | none => simp [hq] at h
    | some v =>
      simp only [hq] at h
      have hv' : hv.get q.y q.x = v := ((Mat.at_eq_some hv _ _ v).mp hq).2
      split at h
      · rename_i hgt
        obtain ⟨h1, h2, h3⟩ := ih _ _ h
        refine ⟨le_trans (le_of_lt hgt) h1, ?_, ?_⟩
        · intro p hp
          rcases List.mem_cons.mp hp with rfl | hp
          · rw [hv']; exact h1
          · exact h2 p hp
        · right
          rcases h3 with rfl | ⟨h4, h5⟩
          · exact ⟨List.mem_cons_self _ _, hv'.symm⟩
          · exact ⟨List.mem_cons_of_mem _ h4, h5⟩
      · rename_i hgt
        obtain ⟨h1, h2, h3⟩ := ih _ _ h
        refine ⟨h1, ?_, ?_⟩
        · intro p hp
          rcases List.mem_cons.mp hp with rfl | hp
          · rw [hv']; exact le_trans (not_lt.mp hgt) h1
          · exact h2 p hp
        · rcases h3 with rfl | ⟨h4, h5⟩
          · left; rfl
          · right; exact ⟨List.mem_cons_of_mem _ h4, h5⟩

theorem strongestInWindow_isSome (winSize : Int) (hv : Mat) (c : Point)
    (h : ∀ p ∈ scanReads winSize c, hv.inside p.y p.x) :
    ∃ maxPt, strongestInWindow winSize hv c = some maxPt := by
  have hc : hv.inside c.y c.x := h c (List.mem_cons_self _ _)
  have hw : ∀ p ∈ windowPoints winSize c, hv.inside p.y p.x :=
    fun p hp => h p (List.mem_cons_of_mem _ hp)
  obtain ⟨r, hr⟩ := scanWindow_isSome hv _ hw (hv.get c.y c.x, c)
  exact ⟨r.2, by simp [strongestInWindow, Mat.at_of_inside hv _ _ hc, hr]⟩

theorem strongestInWindow_inside (winSize : Int) (hv : Mat) (c maxPt : Point)
    (h : strongestInWindow winSize hv c = some maxPt) :
    ∀ p ∈ scanReads winSize c, hv.inside p.y p.x := by
  unfold strongestInWindow at h
  cases hc : hv.at c.y c.x with
  | none => simp [hc] at h
  | some v =>
    simp only [hc, Option.map_eq_some'] at h
    obtain ⟨r, hr, _⟩ := h
    intro p hp
    rcases List.mem_cons.mp hp with rfl | hp
    · exact ((Mat.at_eq_some hv _ _ v).mp hc).1
    · exact scanWindow_inside hv _ _ _ hr p hp

theorem strongestInWindow_spec (winSize : Int) (hv : Mat) (c maxPt : Point)
    (h : strongestInWindow winSize hv c = some maxPt) :
    maxPt ∈ scanReads winSize c ∧ ∀ p ∈ scanReads winSize c,
      hv.get p.y p.x ≤ hv.get maxPt.y maxPt.x := by
  unfold strongestInWindow at h
  cases hc : hv.at c.y c.x with
  | none => simp [hc] at h
  | some v =>
    simp only [hc, Option.map_eq_some'] at h
    obtain ⟨r, hr, rfl⟩ := h
    have hv' : hv.get c.y c.x = v := ((Mat.at_eq_some hv _ _ v).mp hc).2
    obtain ⟨h1, h2, h3⟩ := scanWindow_spec hv _ _ _ _ hr
    have hval : r.1 = hv.get r.2.y r.2.x := by
      rcases h3 with rfl | ⟨_, h5⟩
      · exact hv'.symm
      · exact h5
    refine ⟨?_, ?_⟩
    · rcases h3 with rfl | ⟨h4, _⟩
      · exact List.mem_cons_self _ _
      · exact List.mem_cons_of_mem _ h4
    · intro p hp
      rw [← hval]
      rcases List.mem_cons.mp hp with rfl | hp
      · rw [hv']; exact h1
      · exact h2 p hp

theorem strongestInWindow_small (winSize : Int) (hw : winSize ≤ 1) (hv : Mat)
    (c maxPt : Point) (h : strongestInWindow winSize hv c = some maxPt) : maxPt = c := by
  unfold strongestInWindow at h
  rw [windowPoints_eq_nil winSize hw] at h
  cases hc : hv.at c.y c.x with
  | none => simp [hc] at h
  | some v =>
    simp only [hc, scanWindow, Option.map_some', Option.some.injEq] at h
    exact h.symm

/-! ### The accumulated corner list -/

theorem mem_pushIfAbsent (acc : List Point) (p q : Point) :
    q ∈ pushIfAbsent acc p ↔ q ∈ acc ∨ q = p := by
  unfold pushIfAbsent
  split
  · constructor
    · exact fun h => Or.inl h
    · rintro (h | rfl)
      · exact h
      · assumption
  · simp

theorem nodup_pushIfAbsent (acc : List Point) (p : Point) (h : acc.Nodup) :
    (pushIfAbsent acc p).Nodup := by
  unfold pushIfAbsent
  split
  · exact h
  · rename_i hp
    rw [List.nodup_append]
    refine ⟨h, List.nodup_singleton p, ?_⟩
    intro a ha hb
    rw [List.mem_singleton] at hb
    subst hb
    exact hp ha

theorem mem_firstOccurrences (l : List Point) (q : Point) :
    q ∈ firstOccurrences l ↔ q ∈ l := by
  induction l with
  | nil => simp [firstOccurrences]
  | cons p ps ih =>
    simp only [firstOccurrences, List.mem_cons, List.mem_filter, ih, decide_eq_true_eq]
    by_cases hq : q = p <;> simp [hq]

theorem nodup_firstOccurrences (l : List Point) : (firstOccurrences l).Nodup := by
  induction l with
  | nil => simp [firstOccurrences]
  | cons p ps ih =>
    simp only [firstOccurrences, List.nodup_cons, List.mem_filter, decide_eq_true_eq]
    exact ⟨fun h => h.2 rfl, ih.filter _⟩

theorem firstOccurrences_filter (l : List Point) (P : Point → Bool) :
    (firstOccurrences l).filter P = firstOccurrences (l.filter P) := by
  induction l with
  | nil => simp [firstOccurrences]
  | cons a l ih =>
    by_cases ha : P a = true
    · simp only [firstOccurrences, List.filter_cons, ha, if_true]
      rw [List.filter_filter, ← ih, List.filter_filter]
      congr 1
      apply List.filter_congr
      intro x _
      exact Bool.and_comm _ _
    · simp only [firstOccurrences, List.filter_cons, ha]
      simp only [Bool.false_eq_true, if_false]
      rw [List.filter_filter, ← ih]
      apply List.filter_congr
      intro x hx
      by_cases hxa : x = a
      · subst hxa
        simp [ha]
      · simp [hxa]

theorem length_firstOccurrences (l : List Point) :
    (firstOccurrences l).length = l.toFinset.card := by
  rw [← List.toFinset_card_of_nodup (nodup_firstOccurrences l)]
  congr 1
  ext q
  simp [mem_firstOccurrences]

theorem length_firstOccurrences_map_le (f : Point → Point) (l : List Point) :
    (firstOccurrences (l.map f)).length ≤ (firstOccurrences l).length := by
  rw [length_firstOccurrences, length_firstOccurrences]
  have : (l.map f).toFinset = l.toFinset.image f := by
    ext q
    simp
  rw [this]
  exact Finset.card_image_le

theorem length_firstOccurrences_le (l : List Point) :
    (firstOccurrences l).length ≤ l.length := by
  rw [length_firstOccurrences]
  exact List.toFinset_card_le l

/-- The loop of `selectStrongest` computes the window maxima of the candidates and
appends, in order, the first occurrence of each one that the list does not hold yet. -/
theorem selectStrongestWith_eq (winSize : Int) (cands : List Point) (hv : Mat)
    (acc : List Point) :
    selectStrongestWith winSize cands hv acc =
      (windowMaxima winSize hv cands).map
        (fun ps => acc ++ firstOccurrences (ps.filter (fun q => q ∉ acc))) := by
  induction cands generalizing acc with
  | nil => simp [selectStrongestWith, windowMaxima, firstOccurrences]
  | cons c rest ih =>
    simp only [selectStrongestWith, windowMaxima]
    cases hc : strongestInWindow winSize hv c with
    | none => simp
    | some p =>
      simp only [ih, Option.map_map]
      congr 1
      funext ps
      simp only [Function.comp]
      by_cases hp : p ∈ acc
      · simp [pushIfAbsent, hp, List.filter_cons]
      · simp only [pushIfAbsent, hp, if_false, List.filter_cons, decide_not,
          List.append_assoc, List.singleton_append, firstOccurrences]
        rw [firstOccurrences_filter, List.filter_filter]
        congr 3
        apply List.filter_congr
        intro x _
        simp only [List.mem_append, List.mem_singleton, not_or, Bool.decide_or,
          Bool.not_or, Bool.and_comm, decide_not]

/-! ### The threshold pass -/

theorem foldl_push_filter {α : Type} (P : α → Prop) [DecidablePred P] (g : α → Point)
    (l : List α) (acc : List Point) :
    l.foldl (fun acc i => if P i then acc ++ [g i] else acc) acc =
      acc ++ (l.filter (fun i => decide (P i))).map g := by
  induction l generalizing acc with
  | nil => simp
  | cons a l ih =>
    simp only [List.foldl_cons, ih, List.filter_cons]
    by_cases ha : P a <;> simp [ha]

theorem foldl_append_flatMap {α : Type} (F : α → List Point) (l : List α)
    (acc : List Point) :
    l.foldl (fun acc j => acc ++ F j) acc = acc ++ l.flatMap F := by
  induction l generalizing acc with
  | nil => simp
  | cons a l ih => simp [List.foldl_cons, ih, List.flatMap_cons]

theorem thresholdRow_eq (hv : Mat) (thresh : Rat) (width j : Nat) (acc : List Point) :
    thresholdRow hv thresh width j acc =
      acc ++ ((List.range width).filter (fun i => decide (hv.val j i > thresh))).map
        (fun (i : Nat) => (⟨(i : Int), (j : Int)⟩ : Point)) := by
  unfold thresholdRow
  exact foldl_push_filter (fun i => hv.val j i > thresh) _ _ _

theorem thresholdPass_eq (hv : Mat) (thresh : Rat) (height width : Nat)
    (acc : List Point) :
    thresholdPass hv thresh height width acc =
      acc ++ candidatePixels hv thresh height width := by
  unfold thresholdPass candidatePixels
  simp only [thresholdRow_eq]
  exact foldl_append_flatMap _ _ _

theorem mem_candidatePixels (hv : Mat) (thresh : Rat) (height width : Nat) (p : Point) :
    p ∈ candidatePixels hv thresh height width ↔
      (0 ≤ p.x ∧ p.x < width) ∧ (0 ≤ p.y ∧ p.y < height) ∧ hv.get p.y p.x > thresh := by
  unfold candidatePixels Mat.get
  simp only [List.mem_flatMap, List.mem_map, List.mem_filter, List.mem_range,
    decide_eq_true_eq]
  constructor
  · rintro ⟨j, hj, i, ⟨hi, hgt⟩, rfl⟩
    simp only [Int.toNat_ofNat]
    exact ⟨⟨by omega, by omega⟩, ⟨by omega, by omega⟩, hgt⟩
  · obtain ⟨px, py⟩ := p
    simp only
    rintro ⟨⟨hx0, hx1⟩, ⟨hy0, hy1⟩, hgt⟩
    refine ⟨py.toNat, by omega, px.toNat, ⟨by omega, hgt⟩, ?_⟩
    simp only [Point.mk.injEq]
    constructor <;> omega

theorem pairwise_candidatePixels (hv : Mat) (thresh : Rat) (height width : Nat) :
    (candidatePixels hv thresh height width).Pairwise rasterBefore := by
  unfold candidatePixels
  rw [List.pairwise_flatMap]
  constructor
  · intro j _
    rw [List.pairwise_map]
    apply ((List.pairwise_lt_range width).filter _).imp
    intro a b hab
    right
    exact ⟨rfl, by simpa using hab⟩
  · apply (List.pairwise_lt_range height).imp
    intro a b hab x hx y hy
    simp only [List.mem_map, List.mem_filter] at hx hy
    obtain ⟨_, _, rfl⟩ := hx
    obtain ⟨_, _, rfl⟩ := hy
    left
    simpa using hab

theorem rasterBefore_irrefl (p : Point) : ¬ rasterBefore p p := by
  unfold rasterBefore
  omega

theorem nodup_candidatePixels (hv : Mat) (thresh : Rat) (height width : Nat) :
    (candidatePixels hv thresh height width).Nodup := by
  apply (pairwise_candidatePixels hv thresh height width).imp
  intro a b hab hEq
  subst hEq
  exact rasterBefore_irrefl a hab

/-! ### The global maximum -/

theorem mem_entries (m : Mat) (v : Rat) :
    v ∈ m.entries ↔ ∃ j i, j < m.rows ∧ i < m.cols ∧ m.val j i = v := by
  unfold Mat.entries
  simp only [List.mem_flatMap, List.mem_map, List.mem_range]
  constructor
  · rintro ⟨j, hj, i, hi, rfl⟩
    exact ⟨j, i, hj, hi, rfl⟩
  · rintro ⟨j, i, hj, hi, rfl⟩
    exact ⟨j, hj, i, hi, rfl⟩

theorem foldl_max_ge (l : List Rat) (v : Rat) :
    v ≤ l.foldl max v ∧ ∀ w ∈ l, w ≤ l.foldl max v := by
  induction l generalizing v with
  | nil => simp
  | cons a l ih =>
    simp only [List.foldl_cons, List.mem_cons, forall_eq_or_imp]
    obtain ⟨h1, h2⟩ := ih (max v a)
    exact ⟨le_trans (le_max_left _ _) h1, le_trans (le_max_right _ _) h1, h2⟩

theorem foldl_max_mem (l : List Rat) (v : Rat) :
    l.foldl max v = v ∨ l.foldl max v ∈ l := by
  induction l generalizing v with
  | nil => simp
  | cons a l ih =>
    simp only [List.foldl_cons, List.mem_cons]
    rcases ih (max v a) with h | h
    · rcases max_choice v a with h' | h'
      · left; rw [h, h']
      · right; left; rw [h, h']
    · right; right; exact h

/-- The value `maxVal` bounds every element of the matrix. -/
theorem le_maxVal (m : Mat) (j i : Nat) (hj : j < m.rows) (hi : i < m.cols) :
    m.val j i ≤ maxVal m := by
  have hmem : m.val j i ∈ m.entries := (mem_entries m _).mpr ⟨j, i, hj, hi, rfl⟩
  unfold maxVal
  cases he : m.entries with
  | nil => rw [he] at hmem; cases hmem
  | cons v vs =>
    rw [he] at hmem
    simp only
    rcases List.mem_cons.mp hmem with h | h
    · rw [h]; exact (foldl_max_ge vs v).1
    · exact (foldl_max_ge vs v).2 _ h

/-- In a matrix with at least one element `maxVal` is the value of some element. -/
theorem maxVal_attained (m : Mat) (hr : 0 < m.rows) (hc : 0 < m.cols) :
    ∃ j i, j < m.rows ∧ i < m.cols ∧ m.val j i = maxVal m := by
  have hmem : m.val 0 0 ∈ m.entries := (mem_entries m _).mpr ⟨0, 0, hr, hc, rfl⟩
  unfold maxVal
  cases he : m.entries with
  | nil => rw [he] at hmem; cases hmem
  | cons v vs =>
    simp only
    apply (mem_entries m _).mp
    rw [he]
    rcases foldl_max_mem vs v with h | h
    · rw [h]; exact List.mem_cons_self _ _
    · exact List.mem_cons_of_mem _ h


/-! ### The cornerness field -/

theorem borderInterpolate_lt (p : Int) (len : Nat) (h : 0 < len) :
    borderInterpolate p len < len := by
  unfold borderInterpolate
  split
  · exact h
  · rename_i h1
    have hm : (0 : Int) < 2 * ((len : Int) - 1) := by omega
    have h2 := Int.emod_nonneg p (ne_of_gt hm)
    have h3 := Int.emod_lt_of_pos p hm
    generalize p % (2 * ((len : Int) - 1)) = q at h2 h3
    simp only
    split <;> omega

theorem k_eq_zero : k = 0 := by decide!

theorem cornerStrength_eq (gxx gxy gyy : Rat) :
    cornerStrength gxx gxy gyy = gxx * gyy - gxy * gxy := by
  unfold cornerStrength
  simp [k_eq_zero]

theorem sum_map_const_zero {α : Type} (l : List α) (f : α → Rat) (h : ∀ a, f a = 0) :
    (l.map f).sum = 0 := by
  induction l with
  | nil => rfl
  | cons a l ih => simp [h a, ih]

theorem imgGradX_uniform (img : Image) (h : img.uniformIntensity) (hr : 0 < img.rows)
    (hc : 0 < img.cols) (y x : Nat) : (imgGradX img).val y x = 0 := by
  obtain ⟨v, hv⟩ := h
  have hrows : (imgGray img).rows = img.rows := rfl
  have hcols : (imgGray img).cols = img.cols := rfl
  have hg : ∀ a b : Int, (imgGray img).val (borderInterpolate a (imgGray img).rows)
      (borderInterpolate b (imgGray img).cols) = v := fun a b =>
    hv _ _ (by rw [hrows]; exact borderInterpolate_lt a _ hr)
      (by rw [hcols]; exact borderInterpolate_lt b _ hc)
  simp only [imgGradX, filter2D, kernel, hg]
  simp [List.range_succ]

theorem imgGradY_uniform (img : Image) (h : img.uniformIntensity) (hr : 0 < img.rows)
    (hc : 0 < img.cols) (y x : Nat) : (imgGradY img).val y x = 0 := by
  obtain ⟨v, hv⟩ := h
  have hrows : (imgGray img).rows = img.rows := rfl
  have hcols : (imgGray img).cols = img.cols := rfl
  have hg : ∀ a b : Int, (imgGray img).val (borderInterpolate a (imgGray img).rows)
      (borderInterpolate b (imgGray img).cols) = v := fun a b =>
    hv _ _ (by rw [hrows]; exact borderInterpolate_lt a _ hr)
      (by rw [hcols]; exact borderInterpolate_lt b _ hc)
  simp only [imgGradY, filter2D, kernel, Mat.t, hg]
  simp [List.range_succ]

theorem filter2D_zero (src ker : Mat) (h : ∀ y x, src.val y x = 0) (y x : Nat) :
    (filter2D src ker).val y x = 0 := by
  simp only [filter2D, h, mul_zero]
  apply sum_map_const_zero
  intro a
  apply sum_map_const_zero
  intro b
  rfl

theorem harrisValue_uniform (harrisRadius : Int) (img : Image)
    (h : img.uniformIntensity) (j i : Nat) (hj : j < img.rows) (hi : i < img.cols) :
    (harrisValue harrisRadius img).val j i = 0 := by
  have hr : 0 < img.rows := by omega
  have hc : 0 < img.cols := by omega
  have hx := imgGradX_uniform img h hr hc
  have hy := imgGradY_uniform img h hr hc
  have hxx : ∀ y x, (imgGradXX harrisRadius img).val y x = 0 :=
    filter2D_zero _ _ (fun y x => by simp [Mat.mul, hx])
  have hyy : ∀ y x, (imgGradYY harrisRadius img).val y x = 0 :=
    filter2D_zero _ _ (fun y x => by simp [Mat.mul, hy])
  have hxy : ∀ y x, (imgGradXY harrisRadius img).val y x = 0 :=
    filter2D_zero _ _ (fun y x => by simp [Mat.mul, hx])
  simp only [harrisValue, cornerStrength_eq, hxx, hyy, hxy]
  norm_num

theorem maxVal_eq_zero (m : Mat) (h : ∀ j i, j < m.rows → i < m.cols → m.val j i = 0) :
    maxVal m = 0 := by
  have hall : ∀ v ∈ m.entries, v = 0 := by
    intro v hv
    obtain ⟨j, i, hj, hi, rfl⟩ := (mem_entries m v).mp hv
    exact h j i hj hi
  unfold maxVal
  cases he : m.entries with
  | nil => rfl
  | cons v vs =>
    rw [he] at hall
    simp only
    rcases foldl_max_mem vs v with h1 | h1
    · rw [h1]; exact hall v (List.mem_cons_self _ _)
    · exact hall _ (List.mem_cons_of_mem _ h1)

theorem candidatePixels_eq_nil (hv : Mat) (thresh : Rat)
    (h : ∀ j i, j < hv.rows → i < hv.cols → hv.val j i ≤ thresh) :
    candidatePixels hv thresh hv.rows hv.cols = [] := by
  apply List.eq_nil_iff_forall_not_mem.mpr
  intro p hp
  obtain ⟨⟨hx0, hx1⟩, ⟨hy0, hy1⟩, hgt⟩ := (mem_candidatePixels hv thresh _ _ p).mp hp
  have := h p.y.toNat p.x.toNat (by omega) (by omega)
  unfold Mat.get at hgt
  exact absurd hgt (not_lt.mpr this)


/-- An evaluation of `firstOccurrences`: later repetitions are dropped, the order of
the first occurrences is kept. -/
theorem firstOccurrences_example :
    firstOccurrences [⟨1, 1⟩, ⟨2, 2⟩, ⟨1, 1⟩, ⟨3, 3⟩, ⟨2, 2⟩] = [⟨1, 1⟩, ⟨2, 2⟩, ⟨3, 3⟩] := by
  decide

/-! ### Calls on a detector that already holds points -/

theorem nodup_selectStrongestWith (winSize : Int) (cands : List Point) (hv : Mat)
    (acc out : List Point) (hacc : acc.Nodup)
    (h : selectStrongestWith winSize cands hv acc = some out) : out.Nodup := by
  induction cands generalizing acc with
  | nil =>
    simp only [selectStrongestWith, Option.some.injEq] at h
    subst h
    exact hacc
  | cons c rest ih =>
    simp only [selectStrongestWith] at h
    cases hc : strongestInWindow winSize hv c with
    | none => simp [hc] at h
    | some p =>
      simp only [hc] at h
      exact ih _ (nodup_pushIfAbsent acc p hacc) h

theorem windowMaxima_isSome (winSize : Int) (hv : Mat) (cands : List Point)
    (h : ∀ c ∈ cands, ∀ p ∈ scanReads winSize c, hv.inside p.y p.x) :
    ∃ ps, windowMaxima winSize hv cands = some ps := by
  induction cands with
  | nil => exact ⟨[], rfl⟩
  | cons c rest ih =>
    obtain ⟨p, hp⟩ := strongestInWindow_isSome winSize hv c (h c (List.mem_cons_self _ _))
    obtain ⟨ps, hps⟩ := ih (fun c' hc' => h c' (List.mem_cons_of_mem _ hc'))
    exact ⟨p :: ps, by simp [windowMaxima, hp, hps]⟩

theorem windowMaxima_eq_map (winSize : Int) (hv : Mat) (cands ps : List Point)
    (h : windowMaxima winSize hv cands = some ps) :
    ps = cands.map (fun c => (strongestInWindow winSize hv c).getD c) := by
  induction cands generalizing ps with
  | nil =>
    simp only [windowMaxima, Option.some.injEq] at h
    subst h
    rfl
  | cons c rest ih =>
    simp only [windowMaxima] at h
    cases hc : strongestInWindow winSize hv c with
    | none => simp [hc] at h
    | some p =>
      simp only [hc, Option.map_eq_some'] at h
      obtain ⟨ps', hps', rfl⟩ := h
      simp [hc, ← ih ps' hps']

theorem windowMaxima_small (winSize : Int) (hw : winSize ≤ 1) (hv : Mat)
    (cands ps : List Point) (h : windowMaxima winSize hv cands = some ps) : ps = cands := by
  induction cands generalizing ps with
  | nil =>
    simp only [windowMaxima, Option.some.injEq] at h
    exact h.symm
  | cons c rest ih =>
    simp only [windowMaxima] at h
    cases hc : strongestInWindow winSize hv c with
    | none => simp [hc] at h
    | some p =>
      simp only [hc, Option.map_eq_some'] at h
      obtain ⟨ps', hps', rfl⟩ := h
      rw [ih ps' hps', strongestInWindow_small winSize hw hv c p hc]

/-! ### Matrices that agree on their elements -/

theorem Mat.at_congr (a b : Mat) (hr : a.rows = b.rows) (hc : a.cols = b.cols)
    (h : ∀ j i, j < a.rows → i < a.cols → a.val j i = b.val j i) (row col : Int) :
    a.at row col = b.at row col := by
  by_cases hin : a.inside row col
  · have hin' : b.inside row col := by
      unfold Mat.inside at hin ⊢
      omega
    rw [Mat.at_of_inside a _ _ hin, Mat.at_of_inside b _ _ hin']
    unfold Mat.inside at hin
    unfold Mat.get
    rw [h _ _ (by omega) (by omega)]
  · have hin' : ¬ b.inside row col := by
      unfold Mat.inside at hin ⊢
      omega
    rw [(Mat.at_eq_none a _ _).mpr hin, (Mat.at_eq_none b _ _).mpr hin']

theorem scanWindow_congr (a b : Mat) (h : ∀ row col, a.at row col = b.at row col)
    (pts : List Point) (best : Rat × Point) :
    scanWindow a pts best = scanWindow b pts best := by
  induction pts generalizing best with
  | nil => rfl
  | cons p rest ih =>
    obtain ⟨maxH, maxPt⟩ := best
    simp only [scanWindow, h, ih]

theorem selectStrongestWith_congr (a b : Mat) (hr : a.rows = b.rows)
    (hc : a.cols = b.cols) (h : ∀ j i, j < a.rows → i < a.cols → a.val j i = b.val j i)
    (winSize : Int) (cands acc : List Point) :
    selectStrongestWith winSize cands a acc = selectStrongestWith winSize cands b acc := by
  have hat := Mat.at_congr a b hr hc h
  induction cands generalizing acc with
  | nil => rfl
  | cons c rest ih =>
    simp only [selectStrongestWith, strongestInWindow, hat, scanWindow_congr a b hat, ih]

/-- On an image of uniform intensity a call adds no candidate and runs the
suppression over the candidates already held, on an all-zero field. -/
theorem findCorners_uniform (harrisRadius : Int) (img : Image)
    (h : img.uniformIntensity) (self : DetectHarrisCorners) :
    findCorners harrisRadius img self =
      (selectStrongest self.cornerEstimates (zeroMat img.rows img.cols)
        self.harrisCorners).map (fun hc => ⟨self.cornerEstimates, hc⟩) := by
  have hz := harrisValue_uniform harrisRadius img h
  have hmax : maxVal (harrisValue harrisRadius img) = 0 := maxVal_eq_zero _ hz
  have hnil : candidatePixels (harrisValue harrisRadius img)
      (threshold (harrisValue harrisRadius img)) img.rows img.cols = [] := by
    apply candidatePixels_eq_nil (harrisValue harrisRadius img)
    intro j i hj hi
    rw [hz j i hj hi, threshold, hmax]
    norm_num
  simp only [findCorners, thresholdPass_eq, hnil, List.append_nil, selectStrongest]
  rw [selectStrongestWith_congr (harrisValue harrisRadius img) (zeroMat img.rows img.cols)
    rfl rfl (fun j i hj hi => hz j i hj hi)]



/-! ### The extent and the order of the window -/

theorem length_loopRange (lo hi : Int) : (loopRange lo hi).length = (hi - lo).toNat := by
  simp [loopRange]

theorem pairwise_loopRange (lo hi : Int) : (loopRange lo hi).Pairwise (· < ·) := by
  unfold loopRange
  rw [List.pairwise_map]
  apply (List.pairwise_lt_range _).imp
  intro a b hab
  omega

theorem length_windowPoints_twenty (c : Point) : (windowPoints 20 c).length = 400 := by
  unfold windowPoints
  have h1 : Int.tdiv (-20) 2 = -10 := by decide
  have h2 : Int.tdiv 20 2 = 10 := by decide
  rw [h1, h2, List.length_flatMap]
  have hc : (List.length ∘ fun m => List.map (fun n => (⟨c.x + n, c.y + m⟩ : Point))
      (loopRange (-10) 10)) = fun _ => 20 := by
    funext m
    simp only [Function.comp, List.length_map, length_loopRange]
    decide
  rw [hc, List.map_const', List.sum_replicate, length_loopRange]
  decide

/-- The window is visited in raster order: row by row, and by increasing column within
a row. -/
theorem pairwise_windowPoints (winSize : Int) (c : Point) :
    (windowPoints winSize c).Pairwise rasterBefore := by
  unfold windowPoints
  rw [List.pairwise_flatMap]
  constructor
  · intro m _
    rw [List.pairwise_map]
    apply (pairwise_loopRange _ _).imp
    intro a b hab
    right
    exact ⟨rfl, by simpa using hab⟩
  · apply (pairwise_loopRange _ _).imp
    intro a b hab x hx y hy
    simp only [List.mem_map] at hx hy
    obtain ⟨_, _, rfl⟩ := hx
    obtain ⟨_, _, rfl⟩ := hy
    left
    simpa using hab

theorem nodup_windowPoints (winSize : Int) (c : Point) : (windowPoints winSize c).Nodup := by
  apply (pairwise_windowPoints winSize c).imp
  intro a b hab hEq
  subst hEq
  exact rasterBefore_irrefl a hab

/-! ### Ties in the window scan -/

/-- The scan keeps its initial best when no visited point is strictly greater, and
otherwise ends on the first visited point that carries the greatest visited value. -/
theorem scanWindow_first_max (hv : Mat) (pts : List Point) (maxH : Rat) (maxPt : Point)
    (r : Rat × Point) (h : scanWindow hv pts (maxH, maxPt) = some r) :
    ((∀ p ∈ pts, hv.get p.y p.x ≤ maxH) ∧ r = (maxH, maxPt)) ∨
    (∃ l₁ l₂, pts = l₁ ++ r.2 :: l₂ ∧ r.1 = hv.get r.2.y r.2.x ∧ maxH < r.1 ∧
      (∀ p ∈ l₁, hv.get p.y p.x < r.1) ∧ (∀ p ∈ l₂, hv.get p.y p.x ≤ r.1)) := by
  induction pts generalizing maxH maxPt with
  | nil =>
    simp only [scanWindow, Option.some.injEq] at h
    left
    exact ⟨fun p hp => absurd hp (List.not_mem_nil p), h.symm⟩
  | cons a rest ih =>
    simp only [scanWindow] at h
    cases ha : hv.at a.y a.x with
    | none => simp [ha] at h
    | some v =>
      simp only [ha] at h
      have hv' : hv.get a.y a.x = v := ((Mat.at_eq_some hv _ _ v).mp ha).2
      split at h
      · rename_i hgt
        right
        rcases ih _ _ h with ⟨hall, hr⟩ | ⟨l₁, l₂, hsplit, hval, hlt, hl₁, hl₂⟩
        · subst hr
          exact ⟨[], rest, rfl, hv'.symm, hgt, fun p hp => absurd hp (List.not_mem_nil p), hall⟩
        · refine ⟨a :: l₁, l₂, by rw [hsplit]; rfl, hval, lt_trans hgt hlt, ?_, hl₂⟩
          intro p hp
          rcases List.mem_cons.mp hp with rfl | hp
          · rw [hv']; exact hlt
          · exact hl₁ p hp
      · rename_i hgt
        rcases ih _ _ h with ⟨hall, hr⟩ | ⟨l₁, l₂, hsplit, hval, hlt, hl₁, hl₂⟩
        · left
          refine ⟨?_, hr⟩
          intro p hp
          rcases List.mem_cons.mp hp with rfl | hp
          · rw [hv']; exact not_lt.mp hgt
          · exact hall p hp
        · right
          refine ⟨a :: l₁, l₂, by rw [hsplit]; rfl, hval, hlt, ?_, hl₂⟩
          intro p hp
          rcases List.mem_cons.mp hp with rfl | hp
          · rw [hv']; exact lt_of_le_of_lt (not_lt.mp hgt) hlt
          · exact hl₁ p hp

theorem strongestInWindow_first_max (winSize : Int) (hv : Mat) (c maxPt : Point)
    (h : strongestInWindow winSize hv c = some maxPt) :
    ((∀ p ∈ windowPoints winSize c, hv.get p.y p.x ≤ hv.get c.y c.x) ∧ maxPt = c) ∨
    (∃ l₁ l₂, windowPoints winSize c = l₁ ++ maxPt :: l₂ ∧
      hv.get c.y c.x < hv.get maxPt.y maxPt.x ∧
      (∀ p ∈ l₁, hv.get p.y p.x < hv.get maxPt.y maxPt.x) ∧
      (∀ p ∈ l₂, hv.get p.y p.x ≤ hv.get maxPt.y maxPt.x)) := by
  unfold strongestInWindow at h
  cases hc : hv.at c.y c.x with
  | none => simp [hc] at h
  | some v =>
    simp only [hc, Option.map_eq_some'] at h
    obtain ⟨r, hr, rfl⟩ := h
    have hv' : hv.get c.y c.x = v := ((Mat.at_eq_some hv _ _ v).mp hc).2
    rcases scanWindow_first_max hv _ _ _ _ hr with ⟨hall, hr'⟩ | ⟨l₁, l₂, hs, hval, hlt, h1, h2⟩
    · left
      rw [hv']
      exact ⟨hall, by rw [hr']⟩
    · right
      rw [hv', ← hval]
      exact ⟨l₁, l₂, hs, hlt, h1, h2⟩

/-- A candidate whose value is not exceeded in its window is its own window maximum. -/
theorem strongestInWindow_self (winSize : Int) (hv : Mat) (c : Point)
    (hin : ∀ p ∈ scanReads winSize c, hv.inside p.y p.x)
    (hmax : ∀ p ∈ windowPoints winSize c, hv.get p.y p.x ≤ hv.get c.y c.x) :
    strongestInWindow winSize hv c = some c := by
  obtain ⟨maxPt, hm⟩ := strongestInWindow_isSome winSize hv c hin
  rcases strongestInWindow_first_max winSize hv c maxPt hm with ⟨_, rfl⟩ | ⟨l₁, l₂, hs, hlt, _, _⟩
  · exact hm
  · have hmem : maxPt ∈ windowPoints winSize c := by
      rw [hs]
      exact List.mem_append_right _ (List.mem_cons_self _ _)
    exact absurd (hmax maxPt hmem) (not_le.mpr hlt)


/-! ### Non-negativity of the cornerness value -/

theorem sum_map_sq_form {α : Type} (l : List α) (a b : α → Rat) (x : Rat) :
    (l.map (fun i => (a i * x + b i) * (a i * x + b i))).sum =
      (l.map (fun i => a i * a i)).sum * (x * x)
        + 2 * (l.map (fun i => a i * b i)).sum * x
        + (l.map (fun i => b i * b i)).sum := by
  induction l with
  | nil => simp
  | cons c l ih =>
    simp only [List.map_cons, List.sum_cons, ih]
    ring

/-- The Cauchy-Schwarz inequality for sums over a list. -/
theorem sum_mul_sq_le {α : Type} (l : List α) (a b : α → Rat) :
    (l.map (fun i => a i * b i)).sum * (l.map (fun i => a i * b i)).sum ≤
      (l.map (fun i => a i * a i)).sum * (l.map (fun i => b i * b i)).sum := by
  have hq : ∀ x : Rat, 0 ≤ (l.map (fun i => a i * a i)).sum * (x * x)
      + 2 * (l.map (fun i => a i * b i)).sum * x + (l.map (fun i => b i * b i)).sum := by
    intro x
    rw [← sum_map_sq_form]
    apply List.sum_nonneg
    intro v hv
    obtain ⟨i, _, rfl⟩ := List.mem_map.mp hv
    exact mul_self_nonneg _
  have hd := discrim_le_zero hq
  unfold discrim at hd
  generalize (l.map (fun i => a i * a i)).sum = saa at hd ⊢
  generalize (l.map (fun i => a i * b i)).sum = sab at hd ⊢
  generalize (l.map (fun i => b i * b i)).sum = sbb at hd ⊢
  have h4 : (2 * sab) ^ 2 - 4 * saa * sbb = 4 * (sab * sab - saa * sbb) := by ring
  rw [h4] at hd
  linarith

theorem sum_sum_eq_sum_pairs {α β : Type} (L : List α) (M : List β) (f : α → β → Rat) :
    (L.map (fun a => (M.map (fun b => f a b)).sum)).sum =
      ((L.flatMap (fun a => M.map (fun b => (a, b)))).map (fun p => f p.1 p.2)).sum := by
  induction L with
  | nil => simp
  | cons a L ih =>
    simp only [List.map_cons, List.sum_cons, ih, List.flatMap_cons, List.map_append,
      List.sum_append, List.map_map]
    rfl

/-- The determinant of the summed products is not negative: the three sums run over
one and the same window of gradient samples. -/
theorem harrisValue_nonneg (harrisRadius : Int) (img : Image) (j i : Nat) :
    0 ≤ (harrisValue harrisRadius img).val j i := by
  simp only [harrisValue, cornerStrength_eq, imgGradXX, imgGradYY, imgGradXY, filter2D,
    Mat.mul, unWeightedKernel, one_mul]
  rw [sum_sum_eq_sum_pairs, sum_sum_eq_sum_pairs, sum_sum_eq_sum_pairs]
  have h := sum_mul_sq_le
    ((List.range harrisRadius.toNat).flatMap (fun a =>
      (List.range harrisRadius.toNat).map (fun b => (a, b))))
    (fun p => (imgGradX img).val
      (borderInterpolate ((j : Int) + (p.1 : Int) - ((harrisRadius.toNat / 2 : Nat) : Int))
        img.rows)
      (borderInterpolate ((i : Int) + (p.2 : Int) - ((harrisRadius.toNat / 2 : Nat) : Int))
        img.cols))
    (fun p => (imgGradY img).val
      (borderInterpolate ((j : Int) + (p.1 : Int) - ((harrisRadius.toNat / 2 : Nat) : Int))
        img.rows)
      (borderInterpolate ((i : Int) + (p.2 : Int) - ((harrisRadius.toNat / 2 : Nat) : Int))
        img.cols))
  exact sub_nonneg.mpr h

theorem entries_eq_nil (m : Mat) (h : m.rows = 0 ∨ m.cols = 0) : m.entries = [] := by
  apply List.eq_nil_iff_forall_not_mem.mpr
  intro v hv
  obtain ⟨j, i, hj, hi, _⟩ := (mem_entries m v).mp hv
  omega

theorem maxVal_nonneg (m : Mat) (h : ∀ j i, j < m.rows → i < m.cols → 0 ≤ m.val j i) :
    0 ≤ maxVal m := by
  by_cases hd : 0 < m.rows ∧ 0 < m.cols
  · obtain ⟨j, i, hj, hi, hval⟩ := maxVal_attained m hd.1 hd.2
    rw [← hval]
    exact h j i hj hi
  · have he : m.entries = [] := entries_eq_nil m (by omega)
    unfold maxVal
    rw [he]

/-! ### Thresholds of different height -/

theorem length_candidatePixels_anti (hv : Mat) (t₁ t₂ : Rat) (h : t₁ ≤ t₂)
    (height width : Nat) :
    (candidatePixels hv t₂ height width).length ≤
      (candidatePixels hv t₁ height width).length := by
  apply List.Subperm.length_le
  apply (nodup_candidatePixels hv t₂ height width).subperm
  intro p hp
  rw [mem_candidatePixels] at hp ⊢
  exact ⟨hp.1, hp.2.1, lt_of_le_of_lt h hp.2.2⟩


/-! ### The stage after the cornerness field -/

theorem findCorners_eq_thresholdAndSuppress (harrisRadius : Int) (img : Image)
    (self : DetectHarrisCorners) :
    findCorners harrisRadius img self =
      thresholdAndSuppress (harrisValue harrisRadius img) img.rows img.cols self := rfl

theorem inside_iff (hv : Mat) (p : Point) :
    hv.inside p.y p.x ↔ (0 ≤ p.y ∧ p.y < hv.rows ∧ 0 ≤ p.x ∧ p.x < hv.cols) := Iff.rfl

theorem entries_congr (a b : Mat) (hr : a.rows = b.rows) (hc : a.cols = b.cols)
    (h : ∀ j i, j < a.rows → i < a.cols → a.val j i = b.val j i) :
    a.entries = b.entries := by
  unfold Mat.entries
  rw [← hr, ← hc, List.flatMap_def, List.flatMap_def]
  congr 1
  apply List.map_congr_left
  intro j hj
  apply List.map_congr_left
  intro i hi
  exact h j i (List.mem_range.mp hj) (List.mem_range.mp hi)

theorem maxVal_congr (a b : Mat) (hr : a.rows = b.rows) (hc : a.cols = b.cols)
    (h : ∀ j i, j < a.rows → i < a.cols → a.val j i = b.val j i) :
    maxVal a = maxVal b := by
  unfold maxVal
  rw [entries_congr a b hr hc h]

theorem candidatePixels_congr (a b : Mat) (thresh : Rat) (height width : Nat)
    (h : ∀ j i, j < height → i < width → a.val j i = b.val j i) :
    candidatePixels a thresh height width = candidatePixels b thresh height width := by
  unfold candidatePixels
  rw [List.flatMap_def, List.flatMap_def]
  congr 1
  apply List.map_congr_left
  intro j hj
  congr 1
  apply List.filter_congr
  intro i hi
  rw [h j i (List.mem_range.mp hj) (List.mem_range.mp hi)]

theorem thresholdAndSuppress_congr (a b : Mat) (hr : a.rows = b.rows)
    (hc : a.cols = b.cols) (h : ∀ j i, j < a.rows → i < a.cols → a.val j i = b.val j i)
    (self : DetectHarrisCorners) :
    thresholdAndSuppress a a.rows a.cols self = thresholdAndSuppress b b.rows b.cols self := by
  simp only [thresholdAndSuppress, threshold, thresholdPass_eq, selectStrongest]
  rw [maxVal_congr a b hr hc h, candidatePixels_congr a b _ a.rows a.cols h,
    selectStrongestWith_congr a b hr hc h, hr, hc]

theorem filter2D_congr (a b ker : Mat) (hr : a.rows = b.rows) (hc : a.cols = b.cols)
    (hrpos : 0 < a.rows) (hcpos : 0 < a.cols)
    (h : ∀ j i, j < a.rows → i < a.cols → a.val j i = b.val j i) (y x : Nat) :
    (filter2D a ker).val y x = (filter2D b ker).val y x := by
  simp only [filter2D]
  rw [← hr, ← hc]
  congr 1
  apply List.map_congr_left
  intro ky _
  congr 1
  apply List.map_congr_left
  intro kx _
  rw [h _ _ (borderInterpolate_lt _ _ hrpos) (borderInterpolate_lt _ _ hcpos)]

/-! ### Windows of two elements -/

theorem borderInterpolate_natCast (n len : Nat) (h : n < len) :
    borderInterpolate (n : Int) len = n := by
  unfold borderInterpolate
  split
  · omega
  · have hq : ((n : Int) % (2 * ((len : Int) - 1))).toNat = n := by
      rw [Int.emod_eq_of_lt (by omega) (by omega)]
      exact Int.toNat_natCast n
    simp only [hq]
    rw [if_pos h]

theorem borderInterpolate_pred (n len : Nat) (h : n < len) (hlen : 2 ≤ len) :
    borderInterpolate ((n : Int) - 1) len = reflectPred n := by
  unfold reflectPred
  split
  · rename_i h0
    subst h0
    unfold borderInterpolate
    rw [if_neg (by omega)]
    have hq : ((((0 : Nat) : Int) - 1) % (2 * ((len : Int) - 1))).toNat = 2 * len - 3 := by
      rw [← Int.add_emod_self, Int.emod_eq_of_lt (by omega) (by omega)]
      omega
    simp only [hq]
    split <;> omega
  · rename_i h0
    have h1 : ((n : Int) - 1) = ((n - 1 : Nat) : Int) := by omega
    rw [h1]
    exact borderInterpolate_natCast (n - 1) len (by omega)

theorem filter2D_mul_two (gx gy : Mat) (fx fy : Nat → Nat → Int)
    (hx : ∀ j i, gx.val j i = ((fx j i : Int) : Rat))
    (hy : ∀ j i, gy.val j i = ((fy j i : Int) : Rat))
    (hr : 2 ≤ gx.rows) (hc : 2 ≤ gx.cols)
    (y x : Nat) (hy1 : y < gx.rows) (hx1 : x < gx.cols) :
    (filter2D (gx.mul gy) (unWeightedKernel 2)).val y x
      = ((sumTwoByTwo fx fy y x : Int) : Rat) := by
  have e1 : (2 : Int).toNat = 2 := rfl
  have hrows : (gx.mul gy).rows = gx.rows := rfl
  have hcols : (gx.mul gy).cols = gx.cols := rfl
  have a0 : ((y : Int) + ((0 : Nat) : Int) - ((2 / 2 : Nat) : Int)) = (y : Int) - 1 := by
    norm_num
  have a1 : ((y : Int) + ((1 : Nat) : Int) - ((2 / 2 : Nat) : Int)) = (y : Int) := by
    norm_num
  have b0 : ((x : Int) + ((0 : Nat) : Int) - ((2 / 2 : Nat) : Int)) = (x : Int) - 1 := by
    norm_num
  have b1 : ((x : Int) + ((1 : Nat) : Int) - ((2 / 2 : Nat) : Int)) = (x : Int) := by
    norm_num
  simp only [filter2D, unWeightedKernel, e1, hrows, hcols, List.range_succ, List.range_zero,
    List.nil_append, List.cons_append, List.map_cons, List.map_nil, List.sum_cons,
    List.sum_nil, one_mul, add_zero, a0, a1, b0, b1,
    borderInterpolate_pred y gx.rows hy1 hr, borderInterpolate_pred x gx.cols hx1 hc,
    borderInterpolate_natCast y gx.rows hy1, borderInterpolate_natCast x gx.cols hx1,
    sumTwoByTwo, Mat.mul, hx, hy]
  push_cast
  ring

theorem imgGradX_eq (img : Image) (hc : 2 ≤ img.cols) (y x : Nat)
    (hy : y < img.rows) (hx : x < img.cols) :
    (imgGradX img).val y x =
      -(imgGray img).val y (reflectPred x) + (imgGray img).val y x := by
  have hrows : (imgGray img).rows = img.rows := rfl
  have hcols : (imgGray img).cols = img.cols := rfl
  have a0 : ((y : Int) + ((0 : Nat) : Int) - ((1 / 2 : Nat) : Int)) = (y : Int) := by
    norm_num
  have b0 : ((x : Int) + ((0 : Nat) : Int) - ((2 / 2 : Nat) : Int)) = (x : Int) - 1 := by
    norm_num
  have b1 : ((x : Int) + ((1 : Nat) : Int) - ((2 / 2 : Nat) : Int)) = (x : Int) := by
    norm_num
  simp only [imgGradX, filter2D, kernel, hrows, hcols, List.range_succ, List.range_zero,
    List.nil_append, List.cons_append, List.map_cons, List.map_nil, List.sum_cons,
    List.sum_nil, add_zero, a0, b0, b1, borderInterpolate_natCast y img.rows hy,
    borderInterpolate_pred x img.cols hx hc, borderInterpolate_natCast x img.cols hx]
  norm_num

theorem imgGradY_eq (img : Image) (hr : 2 ≤ img.rows) (y x : Nat)
    (hy : y < img.rows) (hx : x < img.cols) :
    (imgGradY img).val y x =
      -(imgGray img).val (reflectPred y) x + (imgGray img).val y x := by
  have hrows : (imgGray img).rows = img.rows := rfl
  have hcols : (imgGray img).cols = img.cols := rfl
  have a0 : ((x : Int) + ((0 : Nat) : Int) - ((1 / 2 : Nat) : Int)) = (x : Int) := by
    norm_num
  have b0 : ((y : Int) + ((0 : Nat) : Int) - ((2 / 2 : Nat) : Int)) = (y : Int) - 1 := by
    norm_num
  have b1 : ((y : Int) + ((1 : Nat) : Int) - ((2 / 2 : Nat) : Int)) = (y : Int) := by
    norm_num
  simp only [imgGradY, filter2D, kernel, Mat.t, hrows, hcols, List.range_succ,
    List.range_zero, List.nil_append, List.cons_append, List.map_cons, List.map_nil,
    List.sum_cons, List.sum_nil, add_zero, a0, b0, b1,
    borderInterpolate_natCast x img.cols hx,
    borderInterpolate_pred y img.rows hy hr, borderInterpolate_natCast y img.rows hy]
  norm_num

/-! ### The cornerness field of `dotImage` -/

theorem dotGradX_cast (j i : Nat) : dotGradX.val j i = ((dotGradXInt j i : Int) : Rat) := by
  simp only [dotGradX, dotGradXInt]
  split_ifs <;> simp

theorem dotGradY_cast (j i : Nat) : dotGradY.val j i = ((dotGradYInt j i : Int) : Rat) := by
  simp only [dotGradY, dotGradYInt]
  split_ifs <;> simp

theorem dotGradX_table :
    ∀ j < 20, ∀ i < 20,
      -(imgGray dotImage).val j (reflectPred i) + (imgGray dotImage).val j i
        = dotGradX.val j i := by decide!

theorem dotGradY_table :
    ∀ j < 20, ∀ i < 20,
      -(imgGray dotImage).val (reflectPred j) i + (imgGray dotImage).val j i
        = dotGradY.val j i := by decide!

theorem imgGradX_dotImage :
    ∀ j < 20, ∀ i < 20, (imgGradX dotImage).val j i = dotGradX.val j i := by
  intro j hj i hi
  rw [imgGradX_eq dotImage (by decide) j i hj hi]
  exact dotGradX_table j hj i hi

theorem imgGradY_dotImage :
    ∀ j < 20, ∀ i < 20, (imgGradY dotImage).val j i = dotGradY.val j i := by
  intro j hj i hi
  rw [imgGradY_eq dotImage (by decide) j i hj hi]
  exact dotGradY_table j hj i hi

theorem dotField_table :
    ∀ j < 20, ∀ i < 20,
      ((sumTwoByTwo dotGradXInt dotGradXInt j i * sumTwoByTwo dotGradYInt dotGradYInt j i
        - sumTwoByTwo dotGradXInt dotGradYInt j i
          * sumTwoByTwo dotGradXInt dotGradYInt j i : Int) : Rat)
      = dotField.val j i := by decide!

theorem dotField_from_gradients :
    ∀ j < 20, ∀ i < 20,
      cornerStrength ((filter2D (dotGradX.mul dotGradX) (unWeightedKernel 2)).val j i)
        ((filter2D (dotGradX.mul dotGradY) (unWeightedKernel 2)).val j i)
        ((filter2D (dotGradY.mul dotGradY) (unWeightedKernel 2)).val j i)
      = dotField.val j i := by
  intro j hj i hi
  rw [filter2D_mul_two dotGradX dotGradX dotGradXInt dotGradXInt dotGradX_cast dotGradX_cast
      (by decide) (by decide) j i hj hi,
    filter2D_mul_two dotGradX dotGradY dotGradXInt dotGradYInt dotGradX_cast dotGradY_cast
      (by decide) (by decide) j i hj hi,
    filter2D_mul_two dotGradY dotGradY dotGradYInt dotGradYInt dotGradY_cast dotGradY_cast
      (by decide) (by decide) j i hj hi,
    cornerStrength_eq, ← Int.cast_mul, ← Int.cast_mul, ← Int.cast_sub]
  exact dotField_table j hj i hi

/-- The cornerness value computed from gradient fields that are given by tables. -/
theorem harrisValue_of_gradients (harrisRadius : Int) (img : Image) (gx gy : Mat)
    (hxr : gx.rows = img.rows) (hxc : gx.cols = img.cols)
    (hyr : gy.rows = img.rows) (hyc : gy.cols = img.cols)
    (hrpos : 0 < img.rows) (hcpos : 0 < img.cols)
    (hx : ∀ j i, j < img.rows → i < img.cols → (imgGradX img).val j i = gx.val j i)
    (hy : ∀ j i, j < img.rows → i < img.cols → (imgGradY img).val j i = gy.val j i)
    (j i : Nat) :
    (harrisValue harrisRadius img).val j i =
      cornerStrength ((filter2D (gx.mul gx) (unWeightedKernel harrisRadius)).val j i)
        ((filter2D (gx.mul gy) (unWeightedKernel harrisRadius)).val j i)
        ((filter2D (gy.mul gy) (unWeightedKernel harrisRadius)).val j i) := by
  have hxx := filter2D_congr ((imgGradX img).mul (imgGradX img)) (gx.mul gx)
    (unWeightedKernel harrisRadius) hxr.symm hxc.symm hrpos hcpos
    (fun j i hj hi => by
      show (imgGradX img).val j i * (imgGradX img).val j i = gx.val j i * gx.val j i
      rw [hx j i hj hi]) j i
  have hxy := filter2D_congr ((imgGradX img).mul (imgGradY img)) (gx.mul gy)
    (unWeightedKernel harrisRadius) hxr.symm hxc.symm hrpos hcpos
    (fun j i hj hi => by
      show (imgGradX img).val j i * (imgGradY img).val j i = gx.val j i * gy.val j i
      rw [hx j i hj hi, hy j i hj hi]) j i
  have hyy := filter2D_congr ((imgGradY img).mul (imgGradY img)) (gy.mul gy)
    (unWeightedKernel harrisRadius) hyr.symm hyc.symm hrpos hcpos
    (fun j i hj hi => by
      show (imgGradY img).val j i * (imgGradY img).val j i = gy.val j i * gy.val j i
      rw [hy j i hj hi]) j i
  simp only [harrisValue, imgGradXX, imgGradXY, imgGradYY]
  rw [hxx, hxy, hyy]

theorem harrisValue_dotImage (j i : Nat) (hj : j < 20) (hi : i < 20) :
    (harrisValue 2 dotImage).val j i = dotField.val j i :=
  (harrisValue_of_gradients 2 dotImage dotGradX dotGradY rfl rfl rfl rfl
    (Nat.zero_lt_succ 19) (Nat.zero_lt_succ 19)
    (fun j i hj hi => imgGradX_dotImage j hj i hi)
    (fun j i hj hi => imgGradY_dotImage j hj i hi) j i).trans
    (dotField_from_gradients j hj i hi)

/-- On `dotImage` with `harrisRadius = 2` a call of `findCorners` is the threshold and
suppression stage run on the written-out field `dotField`. -/
theorem findCorners_dotImage (self : DetectHarrisCorners) :
    findCorners 2 dotImage self = thresholdAndSuppress dotField 20 20 self := by
  rw [findCorners_eq_thresholdAndSuppress]
  exact thresholdAndSuppress_congr (harrisValue 2 dotImage) dotField rfl rfl
    (fun j i hj hi => harrisValue_dotImage j i hj hi) self

/-! ### Rounding -/

theorem toFloat_zero : toFloat 0 = 0 := rfl

theorem toDouble_zero : toDouble 0 = 0 := rfl

theorem pow2_eq_zpow (z : Int) : pow2 z = (2 : Rat) ^ z := by
  unfold pow2
  split
  · rename_i h
    obtain ⟨n, rfl⟩ := Int.eq_ofNat_of_zero_le h
    simp
  · rename_i h
    obtain ⟨n, hn⟩ := Int.eq_ofNat_of_zero_le (show 0 ≤ -z by omega)
    have hz : z = -(n : Int) := by omega
    subst hz
    simp

theorem log2Fuel_spec (fuel n : Nat) (h1 : 1 ≤ n) (h2 : n ≤ fuel) :
    2 ^ log2Fuel fuel n ≤ n ∧ n < 2 ^ (log2Fuel fuel n + 1) := by
  induction fuel generalizing n with
  | zero => omega
  | succ fuel ih =>
    unfold log2Fuel
    split
    · rename_i h
      obtain ⟨ha, hb⟩ := ih (n / 2) (by omega) (by omega)
      rw [pow_succ, pow_succ]
      constructor <;> omega
    · simp
      omega

theorem abs_eq_natAbs_div_den (q : Rat) : |q| = (q.num.natAbs : Rat) / (q.den : Rat) := by
  conv_lhs => rw [← Rat.num_div_den q]
  rw [abs_div, Nat.abs_cast, Nat.cast_natAbs, Int.cast_abs]

theorem binaryExponent_spec (q : Rat) (hq : q ≠ 0) :
    (2 : Rat) ^ binaryExponent q ≤ |q| ∧ |q| < (2 : Rat) ^ (binaryExponent q + 1) := by
  have hnum : 1 ≤ q.num.natAbs := by
    have : q.num ≠ 0 := Rat.num_ne_zero.mpr hq
    omega
  have hden : 1 ≤ q.den := q.den_pos
  obtain ⟨ha1, ha2⟩ := log2Fuel_spec q.num.natAbs q.num.natAbs hnum le_rfl
  obtain ⟨hb1, hb2⟩ := log2Fuel_spec q.den q.den hden le_rfl
  have hdpos : (0 : Rat) < (q.den : Rat) := by exact_mod_cast q.den_pos
  rw [abs_eq_natAbs_div_den]
  unfold binaryExponent
  simp only [pow2_eq_zpow]
  generalize log2Fuel q.num.natAbs q.num.natAbs = a at ha1 ha2 ⊢
  generalize log2Fuel q.den q.den = b at hb1 hb2 ⊢
  have ha1' : (2 : Rat) ^ (a : Int) ≤ (q.num.natAbs : Rat) := by
    rw [zpow_natCast]; exact_mod_cast ha1
  have ha2' : (q.num.natAbs : Rat) < (2 : Rat) ^ ((a : Int) + 1) := by
    rw [show ((a : Int) + 1) = ((a + 1 : Nat) : Int) by push_cast; ring, zpow_natCast]
    exact_mod_cast ha2
  have hb1' : (2 : Rat) ^ (b : Int) ≤ (q.den : Rat) := by
    rw [zpow_natCast]; exact_mod_cast hb1
  have hb2' : (q.den : Rat) < (2 : Rat) ^ ((b : Int) + 1) := by
    rw [show ((b : Int) + 1) = ((b + 1 : Nat) : Int) by push_cast; ring, zpow_natCast]
    exact_mod_cast hb2
  have h2 : (0 : Rat) < 2 := by norm_num
  have hpb : (0 : Rat) < (2 : Rat) ^ (b : Int) := zpow_pos h2 _
  split
  · rename_i hle
    constructor
    · rw [le_div_iff₀ hdpos]; exact hle
    · rw [div_lt_iff₀ hdpos]
      calc (q.num.natAbs : Rat) < (2 : Rat) ^ ((a : Int) + 1) := ha2'
        _ = (2 : Rat) ^ ((a : Int) - (b : Int) + 1) * (2 : Rat) ^ (b : Int) := by
            rw [← zpow_add₀ (by norm_num : (2 : Rat) ≠ 0)]; congr 1; ring
        _ ≤ (2 : Rat) ^ ((a : Int) - (b : Int) + 1) * (q.den : Rat) :=
            mul_le_mul_of_nonneg_left hb1' (le_of_lt (zpow_pos h2 _))
  · rename_i hle
    rw [not_le] at hle
    constructor
    · rw [le_div_iff₀ hdpos]
      calc (2 : Rat) ^ ((a : Int) - (b : Int) - 1) * (q.den : Rat)
          ≤ (2 : Rat) ^ ((a : Int) - (b : Int) - 1) * (2 : Rat) ^ ((b : Int) + 1) :=
            mul_le_mul_of_nonneg_left (le_of_lt hb2') (le_of_lt (zpow_pos h2 _))
        _ = (2 : Rat) ^ (a : Int) := by
            rw [← zpow_add₀ (by norm_num : (2 : Rat) ≠ 0)]; congr 1; ring
        _ ≤ (q.num.natAbs : Rat) := ha1'
    · rw [div_lt_iff₀ hdpos, show (a : Int) - (b : Int) - 1 + 1 = (a : Int) - (b : Int) by ring]
      exact hle

theorem binaryExponent_eq (q : Rat) (e : Int) (h1 : (2 : Rat) ^ e ≤ |q|)
    (h2 : |q| < (2 : Rat) ^ (e + 1)) : binaryExponent q = e := by
  have hq : q ≠ 0 := by
    rintro rfl
    simp at h1
    exact absurd h1 (not_le.mpr (zpow_pos (by norm_num) _))
  obtain ⟨h3, h4⟩ := binaryExponent_spec q hq
  have hlt : ∀ a b : Int, (2 : Rat) ^ a < (2 : Rat) ^ b → a < b := fun a b h =>
    (zpow_lt_zpow_iff_right₀ (by norm_num : (1 : Rat) < 2)).mp h
  have ha := hlt _ _ (lt_of_le_of_lt h1 h4)
  have hb := hlt _ _ (lt_of_le_of_lt h3 h2)
  omega

theorem floor_le_self (x : Rat) : (Rat.floor x : Rat) ≤ x := Rat.le_floor.mp le_rfl

theorem floor_intCast (n : Int) : Rat.floor (n : Rat) = n := by
  apply le_antisymm
  · have := floor_le_self (n : Rat)
    exact_mod_cast this
  · exact Rat.le_floor.mpr le_rfl

theorem roundHalfEven_intCast (n : Int) : roundHalfEven (n : Rat) = n := by
  unfold roundHalfEven
  simp only [floor_intCast, sub_self]
  norm_num

theorem lt_floor_add_one (x : Rat) : x < (Rat.floor x : Rat) + 1 := by
  by_contra h
  rw [not_lt] at h
  have : Rat.floor x + 1 ≤ Rat.floor x := Rat.le_floor.mpr (by push_cast; exact h)
  omega

theorem le_roundHalfEven (a : Int) (x : Rat) (h : (a : Rat) ≤ x) : a ≤ roundHalfEven x := by
  have hf : a ≤ Rat.floor x := Rat.le_floor.mpr h
  unfold roundHalfEven
  simp only
  split
  · exact hf
  · split
    · omega
    · split <;> omega

theorem roundHalfEven_le (b : Int) (x : Rat) (h : x ≤ (b : Rat)) : roundHalfEven x ≤ b := by
  have h1 := floor_le_self x
  have hfb : Rat.floor x ≤ b := by
    have : (Rat.floor x : Rat) ≤ (b : Rat) := le_trans h1 h
    exact_mod_cast this
  have hstep : x - (Rat.floor x : Rat) ≠ 0 → Rat.floor x + 1 ≤ b := by
    intro hne
    have hlt : (Rat.floor x : Rat) < (b : Rat) := by
      rcases lt_or_eq_of_le (le_trans h1 h) with hlt | heq
      · exact hlt
      · exfalso
        apply hne
        have : x = (Rat.floor x : Rat) := le_antisymm (by rw [heq]; exact h) h1
        linarith
    have : Rat.floor x < b := by exact_mod_cast hlt
    omega
  unfold roundHalfEven
  simp only
  split
  · exact hfb
  · rename_i hr
    have hne : x - (Rat.floor x : Rat) ≠ 0 := by
      intro h0
      rw [h0] at hr
      norm_num at hr
    have := hstep hne
    split
    · exact this
    · split
      · exact hfb
      · exact this

/-- A number `m * 2^z` whose integer `m` has exactly `p` bits is its own rounding. -/
theorem roundToPrecision_of_mantissa (p : Nat) (hp : 1 ≤ p) (m z : Int)
    (h1 : (2 : Int) ^ (p - 1) ≤ |m|) (h2 : |m| < (2 : Int) ^ p) :
    roundToPrecision p ((m : Rat) * (2 : Rat) ^ z) = (m : Rat) * (2 : Rat) ^ z := by
  have h2pos : (0 : Rat) < (2 : Rat) ^ z := zpow_pos (by norm_num) _
  have hm : m ≠ 0 := by
    rintro rfl
    have : (0 : Int) < (2 : Int) ^ (p - 1) := by positivity
    simp at h1
    omega
  have hq : (m : Rat) * (2 : Rat) ^ z ≠ 0 :=
    mul_ne_zero (by exact_mod_cast hm) (ne_of_gt h2pos)
  have habs : |(m : Rat) * (2 : Rat) ^ z| = ((|m| : Int) : Rat) * (2 : Rat) ^ z := by
    rw [abs_mul, abs_of_pos h2pos, Int.cast_abs]
  have he : binaryExponent ((m : Rat) * (2 : Rat) ^ z) = z + (p : Int) - 1 := by
    apply binaryExponent_eq
    · rw [habs, show z + (p : Int) - 1 = ((p - 1 : Nat) : Int) + z by omega,
        zpow_add₀ (by norm_num : (2 : Rat) ≠ 0), zpow_natCast]
      apply mul_le_mul_of_nonneg_right _ (le_of_lt h2pos)
      exact_mod_cast h1
    · rw [habs, show z + (p : Int) - 1 + 1 = (p : Int) + z by omega,
        zpow_add₀ (by norm_num : (2 : Rat) ≠ 0), zpow_natCast]
      apply mul_lt_mul_of_pos_right _ h2pos
      exact_mod_cast h2
  unfold roundToPrecision
  rw [if_neg hq]
  simp only [he, pow2_eq_zpow]
  rw [show z + (p : Int) - 1 - (p : Int) + 1 = z by ring,
    mul_div_assoc, div_self (ne_of_gt h2pos), mul_one, roundHalfEven_intCast]

/-- Rounding a rounded value changes nothing. -/
theorem roundToPrecision_idem (p : Nat) (hp : 1 ≤ p) (q : Rat) :
    roundToPrecision p (roundToPrecision p q) = roundToPrecision p q := by
  by_cases hq : q = 0
  · subst hq
    rfl
  obtain ⟨he1, he2⟩ := binaryExponent_spec q hq
  have hu : (0 : Rat) < (2 : Rat) ^ (binaryExponent q - (p : Int) + 1) :=
    zpow_pos (by norm_num) _
  have hval : roundToPrecision p q =
      (roundHalfEven (q / (2 : Rat) ^ (binaryExponent q - (p : Int) + 1)) : Rat)
        * (2 : Rat) ^ (binaryExponent q - (p : Int) + 1) := by
    unfold roundToPrecision
    rw [if_neg hq]
    simp only [pow2_eq_zpow]
  rw [hval]
  generalize hz : binaryExponent q - (p : Int) + 1 = z at hu ⊢
  have hP : (2 : Rat) ^ (binaryExponent q) = ((2 : Int) ^ (p - 1) : Int) * (2 : Rat) ^ z := by
    rw [show binaryExponent q = ((p - 1 : Nat) : Int) + z by omega,
      zpow_add₀ (by norm_num : (2 : Rat) ≠ 0), zpow_natCast]
    push_cast
    rfl
  have hP2 : (2 : Rat) ^ (binaryExponent q + 1) = ((2 : Int) ^ p : Int) * (2 : Rat) ^ z := by
    rw [show binaryExponent q + 1 = (p : Int) + z by omega,
      zpow_add₀ (by norm_num : (2 : Rat) ≠ 0), zpow_natCast]
    push_cast
    rfl
  have hx1 : (((2 : Int) ^ (p - 1) : Int) : Rat) ≤ |q / (2 : Rat) ^ z| := by
    rw [abs_div, abs_of_pos hu, le_div_iff₀ hu, ← hP]
    exact he1
  have hx2 : |q / (2 : Rat) ^ z| < (((2 : Int) ^ p : Int) : Rat) := by
    rw [abs_div, abs_of_pos hu, div_lt_iff₀ hu, ← hP2]
    exact he2
  generalize q / (2 : Rat) ^ z = x at hx1 hx2 ⊢
  have hpow : (2 : Int) ^ p = 2 * (2 : Int) ^ (p - 1) := by
    obtain ⟨n, rfl⟩ : ∃ n, p = n + 1 := ⟨p - 1, by omega⟩
    simp [pow_succ, mul_comm]
  have hPpos : (0 : Int) < (2 : Int) ^ (p - 1) := by positivity
  -- bounds on the rounded mantissa
  have hN : (2 : Int) ^ (p - 1) ≤ |roundHalfEven x| ∧ |roundHalfEven x| ≤ (2 : Int) ^ p := by
    rcases le_or_lt 0 x with hx | hx
    · rw [abs_of_nonneg hx] at hx1 hx2
      have a1 := le_roundHalfEven _ x hx1
      have a2 := roundHalfEven_le _ x (le_of_lt hx2)
      rw [abs_of_nonneg (by omega)]
      exact ⟨a1, a2⟩
    · rw [abs_of_neg hx] at hx1 hx2
      have a1 := roundHalfEven_le (-(2 : Int) ^ (p - 1)) x (by rw [Int.cast_neg]; linarith)
      have a2 := le_roundHalfEven (-(2 : Int) ^ p) x (by rw [Int.cast_neg]; linarith)
      rw [abs_of_nonpos (by omega)]
      constructor <;> omega
  rcases lt_or_eq_of_le hN.2 with hlt | heq
  · exact roundToPrecision_of_mantissa p hp _ z hN.1 hlt
  · -- the mantissa was rounded up to the next power of two
    have hm : ∃ m : Int, roundHalfEven x = 2 * m ∧ |m| = (2 : Int) ^ (p - 1) := by
      rcases abs_cases (roundHalfEven x) with ⟨h, _⟩ | ⟨h, _⟩
      · exact ⟨(2 : Int) ^ (p - 1), by omega, abs_of_pos hPpos⟩
      · refine ⟨-(2 : Int) ^ (p - 1), by omega, ?_⟩
        rw [abs_neg, abs_of_pos hPpos]
    obtain ⟨m, hm1, hm2⟩ := hm
    have hre : ((roundHalfEven x : Int) : Rat) * (2 : Rat) ^ z = (m : Rat) * (2 : Rat) ^ (z + 1) := by
      rw [hm1, zpow_add_one₀ (by norm_num : (2 : Rat) ≠ 0)]
      push_cast
      ring
    rw [hre]
    exact roundToPrecision_of_mantissa p hp m (z + 1) (by omega) (by omega)

theorem toFloat_idem (q : Rat) : toFloat (toFloat q) = toFloat q :=
  roundToPrecision_idem 24 (by decide) q

/-! ### The stored cornerness field -/

theorem cornerStrengthFloat_eq (gxx gxy gyy : Rat) :
    cornerStrengthFloat gxx gxy gyy =
      toFloat (toDouble (toDouble (gxx * gyy) - toDouble (gxy * gxy))) := by
  unfold cornerStrengthFloat
  simp only [k_eq_zero, Int.cast_zero, zero_mul, toFloat_zero, sub_zero, toFloat_idem]

theorem harrisValueFloat_uniform (harrisRadius : Int) (img : Image)
    (h : img.uniformIntensity) (hr : 0 < img.rows) (hc : 0 < img.cols) (j i : Nat) :
    (harrisValueFloat harrisRadius img).val j i = 0 := by
  have hx := imgGradX_uniform img h hr hc
  have hy := imgGradY_uniform img h hr hc
  have hxx : ∀ y x, (imgGradXX harrisRadius img).val y x = 0 :=
    filter2D_zero _ _ (fun y x => by simp [Mat.mul, hx])
  have hyy : ∀ y x, (imgGradYY harrisRadius img).val y x = 0 :=
    filter2D_zero _ _ (fun y x => by simp [Mat.mul, hy])
  have hxy : ∀ y x, (imgGradXY harrisRadius img).val y x = 0 :=
    filter2D_zero _ _ (fun y x => by simp [Mat.mul, hx])
  simp only [harrisValueFloat, cornerStrengthFloat_eq, hxx, hyy, hxy, mul_zero,
    toDouble_zero, sub_zero, toFloat_zero]

theorem findCornersFloat_eq (harrisRadius : Int) (img : Image) (self : DetectHarrisCorners) :
    findCornersFloat harrisRadius img self =
      suppressAfterThreshold (threshFloat (harrisValueFloat harrisRadius img))
        (harrisValueFloat harrisRadius img) img.rows img.cols self := rfl

theorem suppressAfterThreshold_congr (a b : Mat) (hr : a.rows = b.rows)
    (hc : a.cols = b.cols) (h : ∀ j i, j < a.rows → i < a.cols → a.val j i = b.val j i)
    (thresh : Rat) (self : DetectHarrisCorners) :
    suppressAfterThreshold thresh a a.rows a.cols self =
      suppressAfterThreshold thresh b b.rows b.cols self := by
  simp only [suppressAfterThreshold, thresholdPass_eq, selectStrongest]
  rw [candidatePixels_congr a b _ a.rows a.cols h,
    selectStrongestWith_congr a b hr hc h, hr, hc]

theorem threshFloat_congr (a b : Mat) (hr : a.rows = b.rows) (hc : a.cols = b.cols)
    (h : ∀ j i, j < a.rows → i < a.cols → a.val j i = b.val j i) :
    threshFloat a = threshFloat b := by
  unfold threshFloat
  rw [maxVal_congr a b hr hc h]

/-- The stored cornerness value computed from gradient fields given by tables. -/
theorem harrisValueFloat_of_gradients (harrisRadius : Int) (img : Image) (gx gy : Mat)
    (hxr : gx.rows = img.rows) (hxc : gx.cols = img.cols)
    (hyr : gy.rows = img.rows) (hyc : gy.cols = img.cols)
    (hrpos : 0 < img.rows) (hcpos : 0 < img.cols)
    (hx : ∀ j i, j < img.rows → i < img.cols → (imgGradX img).val j i = gx.val j i)
    (hy : ∀ j i, j < img.rows → i < img.cols → (imgGradY img).val j i = gy.val j i)
    (j i : Nat) :
    (harrisValueFloat harrisRadius img).val j i =
      cornerStrengthFloat ((filter2D (gx.mul gx) (unWeightedKernel harrisRadius)).val j i)
        ((filter2D (gx.mul gy) (unWeightedKernel harrisRadius)).val j i)
        ((filter2D (gy.mul gy) (unWeightedKernel harrisRadius)).val j i) := by
  have hxx := filter2D_congr ((imgGradX img).mul (imgGradX img)) (gx.mul gx)
    (unWeightedKernel harrisRadius) hxr.symm hxc.symm hrpos hcpos
    (fun j i hj hi => by
      show (imgGradX img).val j i * (imgGradX img).val j i = gx.val j i * gx.val j i
      rw [hx j i hj hi]) j i
  have hxy := filter2D_congr ((imgGradX img).mul (imgGradY img)) (gx.mul gy)
    (unWeightedKernel harrisRadius) hxr.symm hxc.symm hrpos hcpos
    (fun j i hj hi => by
      show (imgGradX img).val j i * (imgGradY img).val j i = gx.val j i * gy.val j i
      rw [hx j i hj hi, hy j i hj hi]) j i
  have hyy := filter2D_congr ((imgGradY img).mul (imgGradY img)) (gy.mul gy)
    (unWeightedKernel harrisRadius) hyr.symm hyc.symm hrpos hcpos
    (fun j i hj hi => by
      show (imgGradY img).val j i * (imgGradY img).val j i = gy.val j i * gy.val j i
      rw [hy j i hj hi]) j i
  simp only [harrisValueFloat, imgGradXX, imgGradXY, imgGradYY]
  rw [hxx, hxy, hyy]

/-! ### The stored cornerness field of `twoClusters` -/

theorem twoClustersGradX_table :
    ∀ j < 21, ∀ i < 23,
      -(imgGray twoClusters).val j (reflectPred i) + (imgGray twoClusters).val j i
        = twoClustersGradX.val j i := by decide!

theorem twoClustersGradY_table :
    ∀ j < 21, ∀ i < 23,
      -(imgGray twoClusters).val (reflectPred j) i + (imgGray twoClusters).val j i
        = twoClustersGradY.val j i := by decide!

theorem imgGradX_twoClusters :
    ∀ j < 21, ∀ i < 23, (imgGradX twoClusters).val j i = twoClustersGradX.val j i := by
  intro j hj i hi
  rw [imgGradX_eq twoClusters (by decide) j i hj hi]
  exact twoClustersGradX_table j hj i hi

theorem imgGradY_twoClusters :
    ∀ j < 21, ∀ i < 23, (imgGradY twoClusters).val j i = twoClustersGradY.val j i := by
  intro j hj i hi
  rw [imgGradY_eq twoClusters (by decide) j i hj hi]
  exact twoClustersGradY_table j hj i hi

theorem twoClustersField_table :
    ∀ j < 21, ∀ i < 23,
      toFloat (toDouble
        (toDouble (((sumTwoByTwo twoClustersGradXInt twoClustersGradXInt j i
            * sumTwoByTwo twoClustersGradYInt twoClustersGradYInt j i : Int) : Rat))
        - toDouble (((sumTwoByTwo twoClustersGradXInt twoClustersGradYInt j i
            * sumTwoByTwo twoClustersGradXInt twoClustersGradYInt j i : Int) : Rat))))
      = twoClustersField.val j i := by decide!

theorem twoClustersField_from_gradients :
    ∀ j < 21, ∀ i < 23,
      cornerStrengthFloat
        ((filter2D (twoClustersGradX.mul twoClustersGradX) (unWeightedKernel 2)).val j i)
        ((filter2D (twoClustersGradX.mul twoClustersGradY) (unWeightedKernel 2)).val j i)
        ((filter2D (twoClustersGradY.mul twoClustersGradY) (unWeightedKernel 2)).val j i)
      = twoClustersField.val j i := by
  intro j hj i hi
  rw [filter2D_mul_two twoClustersGradX twoClustersGradX twoClustersGradXInt
      twoClustersGradXInt (fun _ _ => rfl) (fun _ _ => rfl) (by decide) (by decide) j i hj hi,
    filter2D_mul_two twoClustersGradX twoClustersGradY twoClustersGradXInt
      twoClustersGradYInt (fun _ _ => rfl) (fun _ _ => rfl) (by decide) (by decide) j i hj hi,
    filter2D_mul_two twoClustersGradY twoClustersGradY twoClustersGradYInt
      twoClustersGradYInt (fun _ _ => rfl) (fun _ _ => rfl) (by decide) (by decide) j i hj hi,
    cornerStrengthFloat_eq, ← Int.cast_mul, ← Int.cast_mul]
  exact twoClustersField_table j hj i hi

theorem harrisValueFloat_twoClusters (j i : Nat) (hj : j < 21) (hi : i < 23) :
    (harrisValueFloat 2 twoClusters).val j i = twoClustersField.val j i :=
  (harrisValueFloat_of_gradients 2 twoClusters twoClustersGradX twoClustersGradY
    rfl rfl rfl rfl (Nat.zero_lt_succ 20) (Nat.zero_lt_succ 22)
    (fun j i hj hi => imgGradX_twoClusters j hj i hi)
    (fun j i hj hi => imgGradY_twoClusters j hj i hi) j i).trans
    (twoClustersField_from_gradients j hj i hi)

theorem maxVal_twoClustersField : maxVal twoClustersField = 46382688 := by decide!

theorem threshFloat_twoClusters :
    threshFloat (harrisValueFloat 2 twoClusters) = 16233941 := by
  rw [threshFloat_congr (harrisValueFloat 2 twoClusters) twoClustersField rfl rfl
    (fun j i hj hi => harrisValueFloat_twoClusters j i hj hi)]
  decide!

/-- On `twoClusters` with `harrisRadius = 2` a call of `findCornersFloat` is the
threshold pass and the suppression run on the written-out field with threshold
16233941. -/
theorem findCornersFloat_twoClusters (self : DetectHarrisCorners) :
    findCornersFloat 2 twoClusters self =
      suppressAfterThreshold 16233941 twoClustersField 21 23 self := by
  rw [findCornersFloat_eq, threshFloat_twoClusters]
  exact suppressAfterThreshold_congr (harrisValueFloat 2 twoClusters) twoClustersField
    rfl rfl (fun j i hj hi => harrisValueFloat_twoClusters j i hj hi) _ self

theorem findCornersFloat_twoClusters_fresh :
    findCornersFloat 2 twoClusters ⟨[], []⟩
      = some ⟨[⟨10, 10⟩, ⟨10, 11⟩], [⟨10, 11⟩]⟩ := by
  rw [findCornersFloat_twoClusters]
  decide!

theorem findCornersFloat_twoClusters_corner :
    findCornersFloat 2 twoClusters ⟨[], [⟨3, 3⟩]⟩
      = some ⟨[⟨10, 10⟩, ⟨10, 11⟩], [⟨3, 3⟩, ⟨10, 11⟩]⟩ := by
  rw [findCornersFloat_twoClusters]
  decide!

theorem findCornersFloat_twoClusters_candidate :
    findCornersFloat 2 twoClusters ⟨[⟨10, 10⟩], [⟨3, 3⟩]⟩
      = some ⟨[⟨10, 10⟩, ⟨10, 10⟩, ⟨10, 11⟩], [⟨3, 3⟩, ⟨10, 11⟩]⟩ := by
  rw [findCornersFloat_twoClusters]
  decide!

/-! ### The lists after a call -/

theorem suppressAfterThreshold_result (thresh : Rat) (hv : Mat) (height width : Nat)
    (s s' : DetectHarrisCorners)
    (h : suppressAfterThreshold thresh hv height width s = some s') :
    s'.cornerEstimates = s.cornerEstimates ++ candidatePixels hv thresh height width ∧
    ∃ ps, windowMaxima 20 hv s'.cornerEstimates = some ps ∧
      s'.harrisCorners =
        s.harrisCorners ++ firstOccurrences (ps.filter (fun q => q ∉ s.harrisCorners)) := by
  simp only [suppressAfterThreshold, Option.map_eq_some', selectStrongest] at h
  obtain ⟨hc1, hsel, rfl⟩ := h
  rw [thresholdPass_eq, selectStrongestWith_eq, Option.map_eq_some'] at hsel
  obtain ⟨ps, hps, rfl⟩ := hsel
  refine ⟨?_, ps, ?_, rfl⟩
  · simp only [thresholdPass_eq]
  · simp only [thresholdPass_eq]
    exact hps

theorem suppressAfterThreshold_result_fresh (thresh : Rat) (hv : Mat) (height width : Nat)
    (s' : DetectHarrisCorners)
    (h : suppressAfterThreshold thresh hv height width DetectHarrisCorners.fresh = some s') :
    s'.cornerEstimates = candidatePixels hv thresh height width ∧
    ∃ ps, windowMaxima 20 hv (candidatePixels hv thresh height width) = some ps ∧
      s'.harrisCorners = firstOccurrences ps := by
  obtain ⟨h1, ps, h2, h3⟩ := suppressAfterThreshold_result thresh hv height width _ _ h
  simp only [DetectHarrisCorners.fresh, List.nil_append] at h1 h3
  refine ⟨h1, ps, ?_, ?_⟩
  · rw [← h1]
    exact h2
  · rw [h3]
    simp

theorem findCandidates_eq (harrisRadius : Int) (img : Image) :
    findCandidates harrisRadius img =
      candidatePixels (harrisValue harrisRadius img)
        (threshold (harrisValue harrisRadius img)) img.rows img.cols := by
  unfold findCandidates
  rw [thresholdPass_eq]
  rfl

theorem findCandidatesFloat_eq (harrisRadius : Int) (img : Image) :
    findCandidatesFloat harrisRadius img =
      candidatePixels (harrisValueFloat harrisRadius img)
        (threshFloat (harrisValueFloat harrisRadius img)) img.rows img.cols := by
  unfold findCandidatesFloat
  rw [thresholdPass_eq]
  rfl

/-! ## Properties of the detector -/

/-- C1 (uniqueness). If the accumulated list `harrisCorners` has no two equal entries
before `selectStrongest` runs, it has none after the call returns; hence the list
produced by `findCorners` on a fresh detector has no duplicate coordinates. -/
theorem selectStrongest_nodup :
    (∀ (cornerEstimates : List Point) (hv : Mat) (harrisCorners out : List Point),
      harrisCorners.Nodup →
      selectStrongest cornerEstimates hv harrisCorners = some out → out.Nodup) ∧
    (∀ (harrisRadius : Int) (img : Image) (d : DetectHarrisCorners),
      findCorners harrisRadius img DetectHarrisCorners.fresh = some d →
      d.harrisCorners.Nodup) := by
  constructor
  · intro cands hv acc out hacc h
    exact nodup_selectStrongestWith 20 cands hv acc out hacc h
  · intro harrisRadius img d h
    simp only [findCorners, Option.map_eq_some'] at h
    obtain ⟨hc, hsel, rfl⟩ := h
    exact nodup_selectStrongestWith 20 _ _ _ hc List.nodup_nil hsel

theorem selectStrongest_nodup_witness :
    (([⟨3, 3⟩] : List Point).Nodup ∧
      selectStrongest [⟨10, 10⟩, ⟨11, 11⟩, ⟨10, 10⟩] peakField [⟨3, 3⟩]
        = some [⟨3, 3⟩, ⟨10, 10⟩] ∧
      ([⟨3, 3⟩, ⟨10, 10⟩] : List Point).Nodup) ∧
    (findCorners 3 flatImage DetectHarrisCorners.fresh = some ⟨[], []⟩ ∧
      (⟨[], []⟩ : DetectHarrisCorners).harrisCorners.Nodup) := by
  have h : selectStrongest [⟨10, 10⟩, ⟨11, 11⟩, ⟨10, 10⟩] peakField [⟨3, 3⟩]
      = some [⟨3, 3⟩, ⟨10, 10⟩] := by decide!
  have hu : flatImage.uniformIntensity := ⟨(imgGray flatImage).val 0 0, fun _ _ _ _ => rfl⟩
  have h' : findCorners 3 flatImage DetectHarrisCorners.fresh = some ⟨[], []⟩ := by
    rw [findCorners_uniform 3 flatImage hu]
    rfl
  exact ⟨⟨by decide, h, selectStrongest_nodup.1 _ _ _ _ (by decide) h⟩,
    h', selectStrongest_nodup.2 _ _ _ h'⟩

/-- C2 (window maximum). For a candidate whose whole window lies inside the field, the
scan of `selectStrongest` returns a point `maxPt` that is the candidate or a point of
its window and whose value is at least the value at the candidate and at every point
of the window. -/
theorem strongestInWindow_is_window_maximum (hv : Mat) (c : Point)
    (h : ∀ p ∈ windowPoints 20 c, hv.inside p.y p.x) :
    ∃ maxPt, strongestInWindow 20 hv c = some maxPt ∧
      (maxPt = c ∨ maxPt ∈ windowPoints 20 c) ∧
      hv.get c.y c.x ≤ hv.get maxPt.y maxPt.x ∧
      ∀ p ∈ windowPoints 20 c, hv.get p.y p.x ≤ hv.get maxPt.y maxPt.x := by
  have hreads : ∀ p ∈ scanReads 20 c, hv.inside p.y p.x := by
    intro p hp
    rcases List.mem_cons.mp hp with rfl | hp
    · exact h _ (self_mem_windowPoints_twenty _)
    · exact h p hp
  obtain ⟨maxPt, hmax⟩ := strongestInWindow_isSome 20 hv c hreads
  obtain ⟨h1, h2⟩ := strongestInWindow_spec 20 hv c maxPt hmax
  exact ⟨maxPt, hmax, List.mem_cons.mp h1, h2 c (List.mem_cons_self _ _),
    fun p hp => h2 p (List.mem_cons_of_mem _ hp)⟩

theorem strongestInWindow_is_window_maximum_witness :
    (∀ p ∈ windowPoints 20 ⟨11, 11⟩, peakField.inside p.y p.x) ∧
    ∃ maxPt, strongestInWindow 20 peakField ⟨11, 11⟩ = some maxPt ∧
      (maxPt = ⟨11, 11⟩ ∨ maxPt ∈ windowPoints 20 ⟨11, 11⟩) ∧
      peakField.get 11 11 ≤ peakField.get maxPt.y maxPt.x ∧
      ∀ p ∈ windowPoints 20 ⟨11, 11⟩, peakField.get p.y p.x ≤ peakField.get maxPt.y maxPt.x := by
  have h : ∀ p ∈ windowPoints 20 ⟨11, 11⟩, peakField.inside p.y p.x := by decide!
  exact ⟨h, strongestInWindow_is_window_maximum peakField ⟨11, 11⟩ h⟩

/-- C3, counterexample. On `twoClusters` with `harrisRadius = 2` the pixel at row 11,
column 13 holds the value 16233941, which is greater than 0.35 times the maximum
46382688 of the field (that is 16233940.8); the stored threshold is the `float`
16233941, which the value does not exceed, so the pixel `(x = 13, y = 11)` is not among
the candidates `(10, 10)`, `(10, 11)` that the call builds. Neither value is changed
by the rounding of the cornerness values. -/
theorem thresholding_counterexample :
    maxVal (harrisValueFloat 2 twoClusters) = 46382688 ∧
    (harrisValueFloat 2 twoClusters).get 11 13 = 16233941 ∧
    (harrisValueFloat 2 twoClusters).get 11 13
      > 35 / 100 * maxVal (harrisValueFloat 2 twoClusters) ∧
    threshFloat (harrisValueFloat 2 twoClusters) = 16233941 ∧
    findCornersFloat 2 twoClusters ⟨[], []⟩ = some ⟨[⟨10, 10⟩, ⟨10, 11⟩], [⟨10, 11⟩]⟩ ∧
    (⟨13, 11⟩ : Point) ∉ ([⟨10, 10⟩, ⟨10, 11⟩] : List Point) ∧
    ((harrisValue 2 twoClusters).val 11 13 = 16233941 ∧
      (harrisValue 2 twoClusters).val 11 10 = 46382688) := by
  have hmax : maxVal (harrisValueFloat 2 twoClusters) = 46382688 := by
    rw [maxVal_congr (harrisValueFloat 2 twoClusters) twoClustersField rfl rfl
      (fun j i hj hi => harrisValueFloat_twoClusters j i hj hi)]
    exact maxVal_twoClustersField
  have hval : (harrisValueFloat 2 twoClusters).get 11 13 = 16233941 := by
    show (harrisValueFloat 2 twoClusters).val 11 13 = 16233941
    rw [harrisValueFloat_twoClusters 11 13 (by decide) (by decide)]
    decide!
  refine ⟨hmax, hval, ?_, threshFloat_twoClusters, findCornersFloat_twoClusters_fresh,
    by decide, by decide!, by decide!⟩
  rw [hval, hmax]
  norm_num

/-- C3, amended. On a detector whose `cornerEstimates` is empty the candidate list
built by `findCorners` consists of exactly the pixels `(x = i, y = j)` of the image
whose stored value exceeds the stored threshold `thresh`, the `float` nearest to the
`double` product of 0.35 and `maxVal`, each once, in raster scan order; and `maxVal`
is the greatest stored value of the field. -/
theorem findCandidatesFloat_spec (harrisRadius : Int) (img : Image) :
    (∀ p : Point, p ∈ findCandidatesFloat harrisRadius img ↔
      (0 ≤ p.x ∧ p.x < img.cols) ∧ (0 ≤ p.y ∧ p.y < img.rows) ∧
        (harrisValueFloat harrisRadius img).get p.y p.x
          > toFloat (toDouble (toDouble (35 / 100)
              * maxVal (harrisValueFloat harrisRadius img)))) ∧
    (findCandidatesFloat harrisRadius img).Nodup ∧
    (findCandidatesFloat harrisRadius img).Pairwise rasterBefore ∧
    (∀ j i, j < img.rows → i < img.cols →
      (harrisValueFloat harrisRadius img).val j i
        ≤ maxVal (harrisValueFloat harrisRadius img)) ∧
    (0 < img.rows → 0 < img.cols → ∃ j i, j < img.rows ∧ i < img.cols ∧
      (harrisValueFloat harrisRadius img).val j i
        = maxVal (harrisValueFloat harrisRadius img)) ∧
    (∀ (harrisCorners : List Point) (d : DetectHarrisCorners),
      findCornersFloat harrisRadius img ⟨[], harrisCorners⟩ = some d →
      d.cornerEstimates = findCandidatesFloat harrisRadius img) := by
  have heq : findCandidatesFloat harrisRadius img =
      candidatePixels (harrisValueFloat harrisRadius img)
        (threshFloat (harrisValueFloat harrisRadius img)) img.rows img.cols := by
    unfold findCandidatesFloat
    rw [thresholdPass_eq]
    rfl
  refine ⟨?_, ?_, ?_, ?_, ?_, ?_⟩
  · intro p
    rw [heq, mem_candidatePixels]
    rfl
  · rw [heq]; exact nodup_candidatePixels _ _ _ _
  · rw [heq]; exact pairwise_candidatePixels _ _ _ _
  · intro j i hj hi
    exact le_maxVal (harrisValueFloat harrisRadius img) j i hj hi
  · intro hr hc
    exact maxVal_attained (harrisValueFloat harrisRadius img) hr hc
  · intro hc d h
    simp only [findCornersFloat, suppressAfterThreshold, Option.map_eq_some'] at h
    obtain ⟨_, _, rfl⟩ := h
    rfl

theorem findCandidatesFloat_spec_witness :
    (0 < twoClusters.rows ∧ 0 < twoClusters.cols ∧ ∃ j i, j < twoClusters.rows ∧
      i < twoClusters.cols ∧
      (harrisValueFloat 2 twoClusters).val j i = maxVal (harrisValueFloat 2 twoClusters)) ∧
    (findCornersFloat 2 twoClusters ⟨[], [⟨3, 3⟩]⟩
        = some ⟨[⟨10, 10⟩, ⟨10, 11⟩], [⟨3, 3⟩, ⟨10, 11⟩]⟩ ∧
      ([⟨10, 10⟩, ⟨10, 11⟩] : List Point) = findCandidatesFloat 2 twoClusters) := by
  have h := findCornersFloat_twoClusters_corner
  exact ⟨⟨by decide, by decide,
      (findCandidatesFloat_spec 2 twoClusters).2.2.2.2.1 (by decide) (by decide)⟩,
    h, (findCandidatesFloat_spec 2 twoClusters).2.2.2.2.2 _ _ h⟩

/-- C4, counterexample. In a 21 x 21 field the candidates at the corners `(0, 0)` and
`(20, 20)` lie inside the field, yet their window scans read `(-10, -10)` and
`(29, 29)`, which are outside it: the reads are not clamped. -/
theorem boundary_safety_counterexample :
    ((zeroMat 21 21).inside 0 0 ∧ (⟨-10, -10⟩ : Point) ∈ scanReads 20 ⟨0, 0⟩ ∧
      ¬ (zeroMat 21 21).inside (-10) (-10) ∧
      selectStrongest [⟨0, 0⟩] (zeroMat 21 21) [] = none) ∧
    ((zeroMat 21 21).inside 20 20 ∧ (⟨29, 29⟩ : Point) ∈ scanReads 20 ⟨20, 20⟩ ∧
      ¬ (zeroMat 21 21).inside 29 29 ∧
      selectStrongest [⟨20, 20⟩] (zeroMat 21 21) [] = none) := by
  refine ⟨⟨by decide, by decide!, by decide, by decide!⟩,
    ⟨by decide, by decide!, by decide, by decide!⟩⟩

/-- C4, amended. For a candidate `(x, y)` with `10 ≤ x ≤ cols - 10` and
`10 ≤ y ≤ rows - 10` every coordinate read by the window scan of `selectStrongest`
lies inside the field, and the scan returns a point. -/
theorem scanReads_inside_of_margin (hv : Mat) (c : Point)
    (hx0 : 10 ≤ c.x) (hx1 : c.x + 10 ≤ hv.cols) (hy0 : 10 ≤ c.y)
    (hy1 : c.y + 10 ≤ hv.rows) :
    (∀ p ∈ scanReads 20 c, 0 ≤ p.y ∧ p.y < hv.rows ∧ 0 ≤ p.x ∧ p.x < hv.cols) ∧
    ∃ maxPt, strongestInWindow 20 hv c = some maxPt := by
  have hreads : ∀ p ∈ scanReads 20 c, hv.inside p.y p.x := by
    intro p hp
    unfold Mat.inside
    rcases List.mem_cons.mp hp with rfl | hp
    · omega
    · rw [mem_windowPoints_twenty] at hp
      omega
  exact ⟨hreads, strongestInWindow_isSome 20 hv c hreads⟩

theorem scanReads_inside_of_margin_witness :
    ((10 : Int) ≤ 11 ∧ (11 : Int) + 10 ≤ peakField.cols ∧ (10 : Int) ≤ 10 ∧
      (10 : Int) + 10 ≤ peakField.rows) ∧
    (∀ p ∈ scanReads 20 ⟨11, 10⟩,
      0 ≤ p.y ∧ p.y < peakField.rows ∧ 0 ≤ p.x ∧ p.x < peakField.cols) ∧
    ∃ maxPt, strongestInWindow 20 peakField ⟨11, 10⟩ = some maxPt :=
  ⟨⟨by decide, by decide, by decide, by decide⟩,
    scanReads_inside_of_margin peakField ⟨11, 10⟩ (by decide) (by decide) (by decide)
      (by decide)⟩

/-- C5 (blank image). For a non-empty image of uniform intensity and a positive
`harrisRadius` the cornerness field is 0 at every pixel, `maxVal` is 0, the threshold
pass selects no candidate, and `findCorners` on a fresh detector returns normally with
both lists empty; this holds for the stored values and threshold as well as for the
exact ones. -/
theorem findCorners_blank_image (harrisRadius : Int) (img : Image)
    (_hk : 0 < harrisRadius) (hr : 0 < img.rows) (hc : 0 < img.cols)
    (h : img.uniformIntensity) :
    ((∀ j i, j < img.rows → i < img.cols → (harrisValueFloat harrisRadius img).val j i = 0) ∧
      maxVal (harrisValueFloat harrisRadius img) = 0 ∧
      findCandidatesFloat harrisRadius img = [] ∧
      findCornersFloat harrisRadius img DetectHarrisCorners.fresh
        = some DetectHarrisCorners.fresh) ∧
    ((∀ j i, j < img.rows → i < img.cols → (harrisValue harrisRadius img).val j i = 0) ∧
      maxVal (harrisValue harrisRadius img) = 0 ∧
      findCandidates harrisRadius img = [] ∧
      findCorners harrisRadius img DetectHarrisCorners.fresh
        = some DetectHarrisCorners.fresh) := by
  constructor
  · have hz : ∀ j i, j < img.rows → i < img.cols →
        (harrisValueFloat harrisRadius img).val j i = 0 :=
      fun j i _ _ => harrisValueFloat_uniform harrisRadius img h hr hc j i
    have hmax : maxVal (harrisValueFloat harrisRadius img) = 0 := maxVal_eq_zero _ hz
    have hth : threshFloat (harrisValueFloat harrisRadius img) = 0 := by
      unfold threshFloat
      rw [hmax, mul_zero]
      rfl
    have hnil : candidatePixels (harrisValueFloat harrisRadius img)
        (threshFloat (harrisValueFloat harrisRadius img)) img.rows img.cols = [] := by
      apply candidatePixels_eq_nil (harrisValueFloat harrisRadius img)
      intro j i hj hi
      rw [hz j i hj hi, hth]
    refine ⟨hz, hmax, ?_, ?_⟩
    · unfold findCandidatesFloat
      rw [thresholdPass_eq, hnil]
      rfl
    · simp only [findCornersFloat, suppressAfterThreshold, thresholdPass_eq, hnil,
        DetectHarrisCorners.fresh]
      rfl
  · have hz := harrisValue_uniform harrisRadius img h
    have hmax : maxVal (harrisValue harrisRadius img) = 0 := maxVal_eq_zero _ hz
    have hnil : candidatePixels (harrisValue harrisRadius img)
        (threshold (harrisValue harrisRadius img)) img.rows img.cols = [] := by
      apply candidatePixels_eq_nil (harrisValue harrisRadius img)
      intro j i hj hi
      rw [hz j i hj hi, threshold, hmax]
      norm_num
    refine ⟨hz, hmax, ?_, ?_⟩
    · unfold findCandidates
      rw [thresholdPass_eq, hnil]
      rfl
    · rw [findCorners_uniform harrisRadius img h]
      rfl

theorem findCorners_blank_image_witness :
    ((0 : Int) < 5 ∧ 0 < flatImage.rows ∧ 0 < flatImage.cols ∧ flatImage.uniformIntensity) ∧
    findCornersFloat 5 flatImage DetectHarrisCorners.fresh = some DetectHarrisCorners.fresh ∧
    findCorners 5 flatImage DetectHarrisCorners.fresh = some DetectHarrisCorners.fresh :=
  have h : flatImage.uniformIntensity := ⟨(imgGray flatImage).val 0 0, fun _ _ _ _ => rfl⟩
  ⟨⟨by decide, by decide, by decide, h⟩,
    (findCorners_blank_image 5 flatImage (by decide) (by decide) (by decide) h).1.2.2.2,
    (findCorners_blank_image 5 flatImage (by decide) (by decide) (by decide) h).2.2.2.2⟩

/-- C7, counterexample. The result of a call depends on what the detector held before
it: on one and the same image, the lists of a detector that already holds a corner, or
a candidate, differ after the call from those of a fresh detector. -/
theorem findCorners_stateless_counterexample :
    (findCorners 1 onePixel ⟨[], []⟩ = some ⟨[], []⟩ ∧
      findCorners 1 onePixel ⟨[], [⟨5, 5⟩]⟩ = some ⟨[], [⟨5, 5⟩]⟩) ∧
    (findCorners 3 flatImage ⟨[], []⟩ = some ⟨[], []⟩ ∧
      findCorners 3 flatImage ⟨[⟨10, 10⟩], []⟩ = some ⟨[⟨10, 10⟩], [⟨10, 10⟩]⟩) ∧
    (findCornersFloat 2 twoClusters ⟨[], []⟩ = some ⟨[⟨10, 10⟩, ⟨10, 11⟩], [⟨10, 11⟩]⟩ ∧
      findCornersFloat 2 twoClusters ⟨[], [⟨3, 3⟩]⟩
        = some ⟨[⟨10, 10⟩, ⟨10, 11⟩], [⟨3, 3⟩, ⟨10, 11⟩]⟩ ∧
      findCornersFloat 2 twoClusters ⟨[⟨10, 10⟩], [⟨3, 3⟩]⟩
        = some ⟨[⟨10, 10⟩, ⟨10, 10⟩, ⟨10, 11⟩], [⟨3, 3⟩, ⟨10, 11⟩]⟩) := by
  have hu : flatImage.uniformIntensity := ⟨(imgGray flatImage).val 0 0, fun _ _ _ _ => rfl⟩
  refine ⟨⟨by decide!, by decide!⟩, ⟨?_, ?_⟩, findCornersFloat_twoClusters_fresh,
    findCornersFloat_twoClusters_corner, findCornersFloat_twoClusters_candidate⟩
  · rw [findCorners_uniform 3 flatImage hu]
    rfl
  · rw [findCorners_uniform 3 flatImage hu]
    decide!

/-- C7, amended. The lists after a call of `findCorners` depend on the lists before
the call as follows: `cornerEstimates` is its former content followed by the
candidates of the image, and `harrisCorners` is its former content followed by the
window maxima of all these candidates, former and new, that it did not hold yet, each
once, in the order of their first occurrence. On a detector whose two lists are empty
before the call, `cornerEstimates` is the candidate list of the image and
`harrisCorners` is the list of the distinct window maxima of these candidates. This
holds for the stored values and threshold as well as for the exact ones. -/
theorem findCorners_result_from_state (harrisRadius : Int) (img : Image)
    (s : DetectHarrisCorners) :
    (∀ s', findCornersFloat harrisRadius img s = some s' →
      s'.cornerEstimates = s.cornerEstimates ++ findCandidatesFloat harrisRadius img ∧
      (∃ ps, windowMaxima 20 (harrisValueFloat harrisRadius img) s'.cornerEstimates
          = some ps ∧
        s'.harrisCorners =
          s.harrisCorners ++ firstOccurrences (ps.filter (fun q => q ∉ s.harrisCorners))) ∧
      (s = DetectHarrisCorners.fresh →
        s'.cornerEstimates = findCandidatesFloat harrisRadius img ∧
        ∃ ps, windowMaxima 20 (harrisValueFloat harrisRadius img)
            (findCandidatesFloat harrisRadius img) = some ps ∧
          s'.harrisCorners = firstOccurrences ps)) ∧
    (∀ s', findCorners harrisRadius img s = some s' →
      s'.cornerEstimates = s.cornerEstimates ++ findCandidates harrisRadius img ∧
      (∃ ps, windowMaxima 20 (harrisValue harrisRadius img) s'.cornerEstimates = some ps ∧
        s'.harrisCorners =
          s.harrisCorners ++ firstOccurrences (ps.filter (fun q => q ∉ s.harrisCorners))) ∧
      (s = DetectHarrisCorners.fresh →
        s'.cornerEstimates = findCandidates harrisRadius img ∧
        ∃ ps, windowMaxima 20 (harrisValue harrisRadius img)
            (findCandidates harrisRadius img) = some ps ∧
          s'.harrisCorners = firstOccurrences ps)) := by
  constructor
  · intro s' h
    rw [findCandidatesFloat_eq]
    have h' : suppressAfterThreshold (threshFloat (harrisValueFloat harrisRadius img))
        (harrisValueFloat harrisRadius img) img.rows img.cols s = some s' := h
    refine ⟨(suppressAfterThreshold_result _ _ _ _ _ _ h').1,
      (suppressAfterThreshold_result _ _ _ _ _ _ h').2, ?_⟩
    intro hs
    subst hs
    exact suppressAfterThreshold_result_fresh _ _ _ _ _ h'
  · intro s' h
    rw [findCandidates_eq]
    have h' : suppressAfterThreshold (threshold (harrisValue harrisRadius img))
        (harrisValue harrisRadius img) img.rows img.cols s = some s' := h
    refine ⟨(suppressAfterThreshold_result _ _ _ _ _ _ h').1,
      (suppressAfterThreshold_result _ _ _ _ _ _ h').2, ?_⟩
    intro hs
    subst hs
    exact suppressAfterThreshold_result_fresh _ _ _ _ _ h'

theorem findCorners_result_from_state_witness :
    (findCornersFloat 2 twoClusters ⟨[⟨10, 10⟩], [⟨3, 3⟩]⟩
        = some ⟨[⟨10, 10⟩, ⟨10, 10⟩, ⟨10, 11⟩], [⟨3, 3⟩, ⟨10, 11⟩]⟩ ∧
      ([⟨10, 10⟩, ⟨10, 10⟩, ⟨10, 11⟩] : List Point)
        = [⟨10, 10⟩] ++ findCandidatesFloat 2 twoClusters ∧
      ∃ ps, windowMaxima 20 (harrisValueFloat 2 twoClusters)
          [⟨10, 10⟩, ⟨10, 10⟩, ⟨10, 11⟩] = some ps ∧
        ([⟨3, 3⟩, ⟨10, 11⟩] : List Point) =
          [⟨3, 3⟩] ++ firstOccurrences (ps.filter (fun q => q ∉ ([⟨3, 3⟩] : List Point)))) ∧
    (findCornersFloat 2 twoClusters DetectHarrisCorners.fresh
        = some ⟨[⟨10, 10⟩, ⟨10, 11⟩], [⟨10, 11⟩]⟩ ∧
      ([⟨10, 10⟩, ⟨10, 11⟩] : List Point) = findCandidatesFloat 2 twoClusters ∧
      ∃ ps, windowMaxima 20 (harrisValueFloat 2 twoClusters)
          (findCandidatesFloat 2 twoClusters) = some ps ∧
        ([⟨10, 11⟩] : List Point) = firstOccurrences ps) ∧
    (findCorners 2 dotImage ⟨[⟨10, 10⟩], [⟨3, 3⟩]⟩
        = some ⟨[⟨10, 10⟩, ⟨10, 10⟩], [⟨3, 3⟩, ⟨10, 10⟩]⟩ ∧
      ([⟨10, 10⟩, ⟨10, 10⟩] : List Point) = [⟨10, 10⟩] ++ findCandidates 2 dotImage ∧
      ∃ ps, windowMaxima 20 (harrisValue 2 dotImage) [⟨10, 10⟩, ⟨10, 10⟩] = some ps ∧
        ([⟨3, 3⟩, ⟨10, 10⟩] : List Point) =
          [⟨3, 3⟩] ++ firstOccurrences (ps.filter (fun q => q ∉ ([⟨3, 3⟩] : List Point)))) := by
  have h1 := findCornersFloat_twoClusters_candidate
  have h2 : findCornersFloat 2 twoClusters DetectHarrisCorners.fresh
      = some ⟨[⟨10, 10⟩, ⟨10, 11⟩], [⟨10, 11⟩]⟩ := findCornersFloat_twoClusters_fresh
  have h3 : findCorners 2 dotImage ⟨[⟨10, 10⟩], [⟨3, 3⟩]⟩
      = some ⟨[⟨10, 10⟩, ⟨10, 10⟩], [⟨3, 3⟩, ⟨10, 10⟩]⟩ := by
    rw [findCorners_dotImage]
    decide!
  have r1 := (findCorners_result_from_state 2 twoClusters _).1 _ h1
  have r2 := ((findCorners_result_from_state 2 twoClusters _).1 _ h2).2.2 rfl
  have r3 := (findCorners_result_from_state 2 dotImage _).2 _ h3
  exact ⟨⟨h1, r1.1, r1.2.1⟩, ⟨h2, r2.1, r2.2⟩, ⟨h3, r3.1, r3.2.1⟩⟩

/-- C8, counterexample. On the 3 x 3 image `whiteDot` with `harrisRadius = 2` the
determinant `Gxx*Gyy - Gxy*Gxy` at row 0, column 0 is 12684751875, which no `float`
holds; the value stored in `harrisValue` is the `float` 12684751872. -/
theorem cornerness_formula_counterexample :
    (imgGradXX 2 whiteDot).val 0 0 * (imgGradYY 2 whiteDot).val 0 0
      - (imgGradXY 2 whiteDot).val 0 0 * (imgGradXY 2 whiteDot).val 0 0 = 12684751875 ∧
    (harrisValueFloat 2 whiteDot).val 0 0 = 12684751872 ∧
    (harrisValueFloat 2 whiteDot).val 0 0 ≠
      (imgGradXX 2 whiteDot).val 0 0 * (imgGradYY 2 whiteDot).val 0 0
        - (imgGradXY 2 whiteDot).val 0 0 * (imgGradXY 2 whiteDot).val 0 0 := by
  have h1 : (imgGradXX 2 whiteDot).val 0 0 * (imgGradYY 2 whiteDot).val 0 0
      - (imgGradXY 2 whiteDot).val 0 0 * (imgGradXY 2 whiteDot).val 0 0 = 12684751875 := by
    decide!
  have h2 : (harrisValueFloat 2 whiteDot).val 0 0 = 12684751872 := by decide!
  refine ⟨h1, h2, ?_⟩
  rw [h1, h2]
  norm_num

/-- C8, amended. The constant `k`, the integer truncation of 0.05, is 0, and the value
stored in `harrisValue` at row `j`, column `i` is the determinant of the Harris matrix
at that pixel as `cv::determinant` computes it in `double` from `Gxx*Gyy` and
`Gxy*Gxy`, narrowed to `float`, whatever the trace. -/
theorem harrisValueFloat_is_rounded_determinant :
    k = 0 ∧
    (∀ gxx gxy gyy : Rat, cornerStrengthFloat gxx gxy gyy =
      toFloat (toDouble (toDouble (gxx * gyy) - toDouble (gxy * gxy)))) ∧
    (∀ (harrisRadius : Int) (img : Image) (j i : Nat),
      (harrisValueFloat harrisRadius img).val j i =
        toFloat (toDouble
          (toDouble ((imgGradXX harrisRadius img).val j i
            * (imgGradYY harrisRadius img).val j i)
          - toDouble ((imgGradXY harrisRadius img).val j i
            * (imgGradXY harrisRadius img).val j i)))) :=
  ⟨k_eq_zero, cornerStrengthFloat_eq, fun harrisRadius img j i => by
    simp only [harrisValueFloat, cornerStrengthFloat_eq]⟩

/-- C9 (output order). Starting from an empty `harrisCorners`, `selectStrongest`
returns the window maxima of the candidates, in candidate order, with every
occurrence of a point after its first removed; it returns such a list whenever all
reads are inside the field (and fails exactly when the computation of some window
maximum does). -/
theorem selectStrongest_output_order (cornerEstimates : List Point) (hv : Mat) :
    selectStrongest cornerEstimates hv [] =
      (windowMaxima 20 hv cornerEstimates).map firstOccurrences ∧
    ((∀ c ∈ cornerEstimates, ∀ p ∈ scanReads 20 c, hv.inside p.y p.x) →
      ∃ ps, windowMaxima 20 hv cornerEstimates = some ps ∧
        ps.length = cornerEstimates.length ∧
        selectStrongest cornerEstimates hv [] = some (firstOccurrences ps)) := by
  have heq : selectStrongest cornerEstimates hv [] =
      (windowMaxima 20 hv cornerEstimates).map firstOccurrences := by
    unfold selectStrongest
    rw [selectStrongestWith_eq]
    congr 1
    funext ps
    simp
  refine ⟨heq, fun hin => ?_⟩
  obtain ⟨ps, hps⟩ := windowMaxima_isSome 20 hv cornerEstimates hin
  refine ⟨ps, hps, ?_, ?_⟩
  · rw [windowMaxima_eq_map 20 hv _ _ hps, List.length_map]
  · rw [heq, hps]
    rfl

theorem selectStrongest_output_order_witness :
    (∀ c ∈ ([⟨30, 30⟩, ⟨31, 30⟩, ⟨30, 31⟩, ⟨12, 30⟩] : List Point),
      ∀ p ∈ scanReads 20 c, ridgeField.inside p.y p.x) ∧
    windowMaxima 20 ridgeField [⟨30, 30⟩, ⟨31, 30⟩, ⟨30, 31⟩, ⟨12, 30⟩]
      = some [⟨30, 30⟩, ⟨30, 30⟩, ⟨30, 30⟩, ⟨19, 30⟩] ∧
    selectStrongest [⟨30, 30⟩, ⟨31, 30⟩, ⟨30, 31⟩, ⟨12, 30⟩] ridgeField []
      = some [⟨30, 30⟩, ⟨19, 30⟩] ∧
    ∃ ps, windowMaxima 20 ridgeField [⟨30, 30⟩, ⟨31, 30⟩, ⟨30, 31⟩, ⟨12, 30⟩] = some ps ∧
      ps.length = ([⟨30, 30⟩, ⟨31, 30⟩, ⟨30, 31⟩, ⟨12, 30⟩] : List Point).length ∧
      selectStrongest [⟨30, 30⟩, ⟨31, 30⟩, ⟨30, 31⟩, ⟨12, 30⟩] ridgeField []
        = some (firstOccurrences ps) := by
  have hin : ∀ c ∈ ([⟨30, 30⟩, ⟨31, 30⟩, ⟨30, 31⟩, ⟨12, 30⟩] : List Point),
      ∀ p ∈ scanReads 20 c, ridgeField.inside p.y p.x := by decide!
  exact ⟨hin, by decide!, by decide!,
    (selectStrongest_output_order _ ridgeField).2 hin⟩

/-- C10, counterexample. On `ridgeField`, with the candidates `(30, 30)` and `(31, 30)`
and all reads inside the field, the window side 20 gives one corner and the larger
window side 22 gives two. -/
theorem window_scaling_counterexample :
    selectStrongestWith 20 [⟨30, 30⟩, ⟨31, 30⟩] ridgeField [] = some [⟨30, 30⟩] ∧
    selectStrongestWith 22 [⟨30, 30⟩, ⟨31, 30⟩] ridgeField []
      = some [⟨19, 30⟩, ⟨30, 30⟩] ∧
    ¬ ([⟨19, 30⟩, ⟨30, 30⟩] : List Point).length ≤ ([⟨30, 30⟩] : List Point).length := by
  refine ⟨by decide!, by decide!, by decide⟩

/-- C10, amended. With the window side as a parameter, the number of corners produced
from an empty accumulator with any window side `w2` is at most the number produced
with a window side `w1 ≤ 1`, for which the window is empty and the output is the list
of distinct candidates. -/
theorem window_scaling_from_empty_window (hv : Mat) (cornerEstimates : List Point)
    (w1 w2 : Int) (hw : w1 ≤ 1) (out1 out2 : List Point)
    (h1 : selectStrongestWith w1 cornerEstimates hv [] = some out1)
    (h2 : selectStrongestWith w2 cornerEstimates hv [] = some out2) :
    out1 = firstOccurrences cornerEstimates ∧ out2.length ≤ out1.length := by
  rw [selectStrongestWith_eq, Option.map_eq_some'] at h1 h2
  obtain ⟨ps1, hps1, rfl⟩ := h1
  obtain ⟨ps2, hps2, rfl⟩ := h2
  have e1 := windowMaxima_small w1 hw hv _ _ hps1
  have e2 := windowMaxima_eq_map w2 hv _ _ hps2
  subst e1
  simp only [List.not_mem_nil, not_false_eq_true, decide_True, List.filter_true,
    List.nil_append, true_and]
  rw [e2]
  exact length_firstOccurrences_map_le _ _

theorem window_scaling_from_empty_window_witness :
    (1 : Int) ≤ 1 ∧
    selectStrongestWith 1 [⟨10, 10⟩, ⟨11, 11⟩] peakField [] = some [⟨10, 10⟩, ⟨11, 11⟩] ∧
    selectStrongestWith 20 [⟨10, 10⟩, ⟨11, 11⟩] peakField [] = some [⟨10, 10⟩] ∧
    ([⟨10, 10⟩, ⟨11, 11⟩] = firstOccurrences [⟨10, 10⟩, ⟨11, 11⟩] ∧
      ([⟨10, 10⟩] : List Point).length ≤ ([⟨10, 10⟩, ⟨11, 11⟩] : List Point).length) := by
  have h1 : selectStrongestWith 1 [⟨10, 10⟩, ⟨11, 11⟩] peakField []
      = some [⟨10, 10⟩, ⟨11, 11⟩] := by decide!
  have h2 : selectStrongestWith 20 [⟨10, 10⟩, ⟨11, 11⟩] peakField []
      = some [⟨10, 10⟩] := by decide!
  exact ⟨le_refl _, h1, h2,
    window_scaling_from_empty_window peakField _ 1 20 (le_refl _) _ _ h1 h2⟩

/-- C11 (threshold monotonicity). With the relative threshold fraction as a parameter
of the threshold pass, raising the fraction never increases the number of candidates:
this holds on every matrix whose maximum is not negative, hence on every cornerness
field that `findCorners` computes, and the fraction 0.35 gives the candidates of
`findCorners`. -/
theorem thresholdPassWith_length_antitone :
    (∀ (hv : Mat) (f₁ f₂ : Rat), 0 ≤ maxVal hv → f₁ ≤ f₂ →
      (thresholdPassWith f₂ hv).length ≤ (thresholdPassWith f₁ hv).length) ∧
    (∀ (harrisRadius : Int) (img : Image) (f₁ f₂ : Rat), 35 / 100 ≤ f₁ → f₁ ≤ f₂ →
      (thresholdPassWith f₂ (harrisValue harrisRadius img)).length ≤
        (thresholdPassWith f₁ (harrisValue harrisRadius img)).length) ∧
    (∀ (harrisRadius : Int) (img : Image),
      thresholdPassWith (35 / 100) (harrisValue harrisRadius img) =
        findCandidates harrisRadius img) := by
  have hgen : ∀ (hv : Mat) (f₁ f₂ : Rat), 0 ≤ maxVal hv → f₁ ≤ f₂ →
      (thresholdPassWith f₂ hv).length ≤ (thresholdPassWith f₁ hv).length := by
    intro hv f₁ f₂ hmax hf
    unfold thresholdPassWith
    rw [thresholdPass_eq, thresholdPass_eq, List.nil_append, List.nil_append]
    exact length_candidatePixels_anti hv _ _ (mul_le_mul_of_nonneg_right hf hmax) _ _
  refine ⟨hgen, ?_, ?_⟩
  · intro harrisRadius img f₁ f₂ _ hf
    exact hgen _ f₁ f₂
      (maxVal_nonneg _ (fun j i _ _ => harrisValue_nonneg harrisRadius img j i)) hf
  · intro harrisRadius img
    rfl

theorem thresholdPassWith_length_antitone_witness :
    ((0 : Rat) ≤ maxVal dotField ∧ (35 / 100 : Rat) ≤ 35 / 100 ∧ (35 / 100 : Rat) ≤ 1 / 2) ∧
    thresholdPassWith (1 / 2) dotField = [⟨10, 10⟩] ∧
    thresholdPassWith (1 / 4) dotField = [⟨10, 9⟩, ⟨9, 10⟩, ⟨10, 10⟩] ∧
    (thresholdPassWith (1 / 2) dotField).length ≤
      (thresholdPassWith (1 / 4) dotField).length ∧
    (thresholdPassWith (1 / 2) (harrisValue 2 dotImage)).length ≤
      (thresholdPassWith (35 / 100) (harrisValue 2 dotImage)).length := by
  have h0 : (0 : Rat) ≤ maxVal dotField := by decide!
  have h1 : (35 / 100 : Rat) ≤ 35 / 100 := le_refl _
  have h2 : (35 / 100 : Rat) ≤ 1 / 2 := by norm_num
  exact ⟨⟨h0, h1, h2⟩, by decide!, by decide!,
    thresholdPassWith_length_antitone.1 dotField (1 / 4) (1 / 2) h0 (by norm_num),
    thresholdPassWith_length_antitone.2.1 2 dotImage (35 / 100) (1 / 2) h1 h2⟩

/-- C13 (window extent). For every candidate `(x, y)` the scan visits exactly the 400
points `(x+n, y+m)` with `-10 ≤ n ≤ 9` and `-10 ≤ m ≤ 9`, each once, so the selected
point lies within these offsets and no visited point is at offset `+10`. -/
theorem windowPoints_extent (c : Point) :
    (windowPoints 20 c).length = 400 ∧ (windowPoints 20 c).Nodup ∧
    (∀ p : Point, p ∈ windowPoints 20 c ↔
      ∃ n m : Int, (-10 ≤ n ∧ n ≤ 9) ∧ (-10 ≤ m ∧ m ≤ 9) ∧ p = ⟨c.x + n, c.y + m⟩) ∧
    (∀ (hv : Mat) (maxPt : Point), strongestInWindow 20 hv c = some maxPt →
      (c.x - 10 ≤ maxPt.x ∧ maxPt.x ≤ c.x + 9) ∧ (c.y - 10 ≤ maxPt.y ∧ maxPt.y ≤ c.y + 9)) ∧
    (∀ p ∈ windowPoints 20 c, p.x ≠ c.x + 10 ∧ p.y ≠ c.y + 10) := by
  refine ⟨length_windowPoints_twenty c, nodup_windowPoints 20 c, ?_, ?_, ?_⟩
  · intro p
    rw [mem_windowPoints_twenty]
    constructor
    · intro h
      refine ⟨p.x - c.x, p.y - c.y, by omega, by omega, ?_⟩
      cases p
      simp
    · rintro ⟨n, m, hn, hm, rfl⟩
      simp only
      omega
  · intro hv maxPt h
    have hmem := (strongestInWindow_spec 20 hv c maxPt h).1
    rcases List.mem_cons.mp hmem with rfl | hw
    · omega
    · rw [mem_windowPoints_twenty] at hw
      omega
  · intro p hp
    rw [mem_windowPoints_twenty] at hp
    omega

theorem windowPoints_extent_witness :
    strongestInWindow 20 peakField ⟨11, 11⟩ = some ⟨10, 10⟩ ∧
    (((11 : Int) - 10 ≤ (⟨10, 10⟩ : Point).x ∧ (⟨10, 10⟩ : Point).x ≤ 11 + 9) ∧
      ((11 : Int) - 10 ≤ (⟨10, 10⟩ : Point).y ∧ (⟨10, 10⟩ : Point).y ≤ 11 + 9)) := by
  have h : strongestInWindow 20 peakField ⟨11, 11⟩ = some ⟨10, 10⟩ := by decide!
  exact ⟨h, (windowPoints_extent ⟨11, 11⟩).2.2.2.1 peakField ⟨10, 10⟩ h⟩

/-- C14 (non-negative cornerness). The three summed fields are sums of `gx*gx`,
`gy*gy` and `gx*gy` over one and the same window and `k = 0`, so by the
Cauchy-Schwarz inequality the cornerness value is not negative at any pixel of any
image; hence neither are `maxVal` and the threshold `0.35*maxVal`. -/
theorem harrisValue_nonnegative (harrisRadius : Int) (img : Image) :
    (∀ j i : Nat, 0 ≤ (harrisValue harrisRadius img).val j i) ∧
    0 ≤ maxVal (harrisValue harrisRadius img) ∧
    0 ≤ threshold (harrisValue harrisRadius img) := by
  have h1 : ∀ j i : Nat, 0 ≤ (harrisValue harrisRadius img).val j i :=
    harrisValue_nonneg harrisRadius img
  have h2 : 0 ≤ maxVal (harrisValue harrisRadius img) :=
    maxVal_nonneg _ (fun j i _ _ => h1 j i)
  refine ⟨h1, h2, ?_⟩
  unfold threshold
  exact mul_nonneg (by norm_num) h2

/-- C17 (in-bounds precondition). For a candidate `(x, y)` with `10 ≤ x ≤ cols - 10`
and `10 ≤ y ≤ rows - 10` every read of `selectStrongest` for that candidate is inside
the field; for a candidate inside the field that violates one of the four bounds some
read of its window scan is outside the field, and the scan has no defined result. -/
theorem scanReads_inside_iff_margin (hv : Mat) (c : Point) :
    ((10 ≤ c.x ∧ c.x ≤ (hv.cols : Int) - 10) ∧ (10 ≤ c.y ∧ c.y ≤ (hv.rows : Int) - 10) →
      ∀ p ∈ scanReads 20 c, hv.inside p.y p.x) ∧
    (hv.inside c.y c.x →
      ¬ ((10 ≤ c.x ∧ c.x ≤ (hv.cols : Int) - 10) ∧ (10 ≤ c.y ∧ c.y ≤ (hv.rows : Int) - 10)) →
      (∃ p ∈ windowPoints 20 c, ¬ hv.inside p.y p.x) ∧ strongestInWindow 20 hv c = none) := by
  constructor
  · rintro ⟨⟨hx0, hx1⟩, ⟨hy0, hy1⟩⟩ p hp
    unfold Mat.inside
    rcases List.mem_cons.mp hp with rfl | hp
    · omega
    · rw [mem_windowPoints_twenty] at hp
      omega
  · intro hin hviol
    have hout : ∃ p ∈ windowPoints 20 c, ¬ hv.inside p.y p.x := by
      unfold Mat.inside at hin ⊢
      by_cases h1 : 10 ≤ c.x
      · by_cases h2 : c.x ≤ (hv.cols : Int) - 10
        · by_cases h3 : 10 ≤ c.y
          · refine ⟨⟨c.x, c.y + 9⟩, (mem_windowPoints_twenty c _).mpr ?_, ?_⟩
            · simp only
              omega
            · simp only
              omega
          · refine ⟨⟨c.x, c.y - 10⟩, (mem_windowPoints_twenty c _).mpr ?_, ?_⟩
            · simp only
              omega
            · simp only
              omega
        · refine ⟨⟨c.x + 9, c.y⟩, (mem_windowPoints_twenty c _).mpr ?_, ?_⟩
          · simp only
            omega
          · simp only
            omega
      · refine ⟨⟨c.x - 10, c.y⟩, (mem_windowPoints_twenty c _).mpr ?_, ?_⟩
        · simp only
          omega
        · simp only
          omega
    refine ⟨hout, ?_⟩
    obtain ⟨p, hp, hnot⟩ := hout
    cases hs : strongestInWindow 20 hv c with
    | none => rfl
    | some maxPt =>
      exact absurd (strongestInWindow_inside 20 hv c maxPt hs p
        (List.mem_cons_of_mem _ hp)) hnot

theorem scanReads_inside_iff_margin_witness :
    ((((10 : Int) ≤ 11 ∧ (11 : Int) ≤ (peakField.cols : Int) - 10) ∧
        ((10 : Int) ≤ 10 ∧ (10 : Int) ≤ (peakField.rows : Int) - 10)) ∧
      ∀ p ∈ scanReads 20 ⟨11, 10⟩, peakField.inside p.y p.x) ∧
    (peakField.inside 10 12 ∧
      ¬ (((10 : Int) ≤ 12 ∧ (12 : Int) ≤ (peakField.cols : Int) - 10) ∧
        ((10 : Int) ≤ 10 ∧ (10 : Int) ≤ (peakField.rows : Int) - 10)) ∧
      (∃ p ∈ windowPoints 20 ⟨12, 10⟩, ¬ peakField.inside p.y p.x) ∧
      strongestInWindow 20 peakField ⟨12, 10⟩ = none) := by
  have h1 : ((10 : Int) ≤ 11 ∧ (11 : Int) ≤ (peakField.cols : Int) - 10) ∧
      ((10 : Int) ≤ 10 ∧ (10 : Int) ≤ (peakField.rows : Int) - 10) := by decide
  have h2 : peakField.inside 10 12 := by decide
  have h3 : ¬ (((10 : Int) ≤ 12 ∧ (12 : Int) ≤ (peakField.cols : Int) - 10) ∧
      ((10 : Int) ≤ 10 ∧ (10 : Int) ≤ (peakField.rows : Int) - 10)) := by decide
  exact ⟨⟨h1, (scanReads_inside_iff_margin peakField ⟨11, 10⟩).1 h1⟩,
    ⟨h2, h3, (scanReads_inside_iff_margin peakField ⟨12, 10⟩).2 h2 h3⟩⟩

/-- C18 (tie-breaking). For a candidate whose window lies inside the field: if no
point of the window has a value greater than the value at the candidate, the
candidate itself is selected; otherwise the selected point is the first point, in the
order of the scan, that attains the maximum of the window (every point visited before
it is strictly smaller, every point visited after it is not greater). The scan visits
the window in raster order, rows outermost. -/
theorem strongestInWindow_tie_breaking (hv : Mat) (c : Point)
    (h : ∀ p ∈ windowPoints 20 c, hv.inside p.y p.x) :
    ∃ maxPt, strongestInWindow 20 hv c = some maxPt ∧
      ((∀ p ∈ windowPoints 20 c, hv.get p.y p.x ≤ hv.get c.y c.x) → maxPt = c) ∧
      ((∃ p ∈ windowPoints 20 c, hv.get c.y c.x < hv.get p.y p.x) →
        ∃ l₁ l₂, windowPoints 20 c = l₁ ++ maxPt :: l₂ ∧
          (∀ p ∈ l₁, hv.get p.y p.x < hv.get maxPt.y maxPt.x) ∧
          (∀ p ∈ l₂, hv.get p.y p.x ≤ hv.get maxPt.y maxPt.x)) ∧
      (windowPoints 20 c).Pairwise rasterBefore := by
  have hreads : ∀ p ∈ scanReads 20 c, hv.inside p.y p.x := by
    intro p hp
    rcases List.mem_cons.mp hp with rfl | hp
    · exact h _ (self_mem_windowPoints_twenty _)
    · exact h p hp
  obtain ⟨maxPt, hmax⟩ := strongestInWindow_isSome 20 hv c hreads
  refine ⟨maxPt, hmax, ?_, ?_, pairwise_windowPoints 20 c⟩
  · intro hle
    have hself := strongestInWindow_self 20 hv c hreads hle
    rw [hself, Option.some.injEq] at hmax
    exact hmax.symm
  · rintro ⟨p, hp, hlt⟩
    rcases strongestInWindow_first_max 20 hv c maxPt hmax with
      ⟨hall, _⟩ | ⟨l₁, l₂, hs, _, h1, h2⟩
    · exact absurd (hall p hp) (not_le.mpr hlt)
    · exact ⟨l₁, l₂, hs, h1, h2⟩

theorem strongestInWindow_tie_breaking_witness :
    (∀ p ∈ windowPoints 20 ⟨11, 11⟩, twinField.inside p.y p.x) ∧
    strongestInWindow 20 twinField ⟨11, 11⟩ = some ⟨10, 10⟩ ∧
    strongestInWindow 20 twinField ⟨11, 10⟩ = some ⟨11, 10⟩ ∧
    ∃ maxPt, strongestInWindow 20 twinField ⟨11, 11⟩ = some maxPt ∧
      ((∀ p ∈ windowPoints 20 ⟨11, 11⟩, twinField.get p.y p.x ≤ twinField.get 11 11) →
        maxPt = ⟨11, 11⟩) ∧
      ((∃ p ∈ windowPoints 20 ⟨11, 11⟩, twinField.get 11 11 < twinField.get p.y p.x) →
        ∃ l₁ l₂, windowPoints 20 ⟨11, 11⟩ = l₁ ++ maxPt :: l₂ ∧
          (∀ p ∈ l₁, twinField.get p.y p.x < twinField.get maxPt.y maxPt.x) ∧
          (∀ p ∈ l₂, twinField.get p.y p.x ≤ twinField.get maxPt.y maxPt.x)) ∧
      (windowPoints 20 ⟨11, 11⟩).Pairwise rasterBefore := by
  have h : ∀ p ∈ windowPoints 20 ⟨11, 11⟩, twinField.inside p.y p.x := by decide!
  exact ⟨h, by decide!, by decide!, strongestInWindow_tie_breaking twinField ⟨11, 11⟩ h⟩

end HarrisCorners
